/-
  Verification of the agent-rig install-state management core.

  Shallow embedding of the TypeScript sources:
    * src/commands/install.ts   — idempotency gate, install-state assembly
    * src/commands/update.ts    — computeDiff, applyDiff state assembly
    * src/adapters/claude-code.ts — topoSortPlugins, installBehavioral
    * src/loader.ts (env part)  — writeEnvBlock / removeEnvBlock tagged blocks

  File contents are modelled as Lean `String`s (for the behavioral installer,
  which treats them opaquely) and as `List Char` (for the tagged-block
  patcher, which edits them character-wise).  The sha256 function from
  node:crypto is external to the repository and is modelled as an abstract
  `hash : String → String` parameter; all gate decisions in the source are
  made only through equality comparisons of hash values, which the abstract
  parameter reproduces exactly.
-/
import Mathlib

namespace AgentRig

/-! ### Operation results (src/adapters/types.ts) -/

inductive Status where
  | installed
  | skipped
  | failed
  | disabled
deriving DecidableEq, Repr

structure InstallResult where
  component : String
  status : Status
  message : Option String := none
deriving DecidableEq, Repr

/-! ### Manifest data model (src/schema.ts, the parts this core reads) -/

structure PluginRef where
  source : String
  description : Option String := none
  depends : List String := []
deriving DecidableEq, Repr

structure ConflictRef where
  source : String
  reason : Option String := none
deriving DecidableEq, Repr

structure PluginsSection where
  core : Option PluginRef := none
  required : List PluginRef := []
  recommended : List PluginRef := []
  infrastructure : List PluginRef := []
  conflicts : List ConflictRef := []
deriving DecidableEq, Repr

inductive McpType where
  | http
  | stdio
  | sse
deriving DecidableEq, Repr

structure BehavioralConfig where
  source : String
  dependedOnBy : List String := []
deriving DecidableEq, Repr

/-- `rig.behavioral` with its two known keys, "claude-md" and "agents-md". -/
structure BehavioralSpec where
  claudeMd : Option BehavioralConfig := none
  agentsMd : Option BehavioralConfig := none
deriving DecidableEq, Repr

/-- The validated manifest (`AgentRig` in src/schema.ts), restricted to the
fields the verified core reads.  `mcpServers` is a JS object; it is modelled
as an association list in key-insertion order (JS object keys are unique). -/
structure Rig where
  name : String
  version : String
  plugins : Option PluginsSection := none
  mcpServers : List (String × McpType) := []
  behavioral : Option BehavioralSpec := none
deriving DecidableEq, Repr

/-! ### Idempotency gate (src/commands/install.ts lines 234-254)

The source checks `if (existing && !opts.force && !opts.dryRun)`, then
compares `existing.version === rig.version`.  The four decisions of the
spec's IdempotencyGate are reified below; `decide` is evaluated with the
`dryRun` flag false, which is the only path on which the gate acts in the
source (with `dryRun` true the command prints a plan and makes no change). -/

inductive Decision where
  | proceedFresh
  | proceedForced
  | noOpSameVersion
  | suggestUpdate
deriving DecidableEq, Repr

/-- The idempotency decision of `installCommand`.  `existing` carries the
stored record's version string when a record for the rig name exists. -/
def installDecision (existing : Option String) (rigVersion : String)
    (force : Bool) : Decision :=
  match existing with
  | none => .proceedFresh
  | some storedVersion =>
    if force then .proceedForced
    else if storedVersion = rigVersion then .noOpSameVersion
    else .suggestUpdate

/-- C3: the gate's full decision table.  Absent record: proceed fresh.
Present and force: proceed forced.  Present, no force, equal version
strings: no-op.  Present, no force, different versions: suggest update. -/
theorem installDecision_spec (existing : Option String) (v : String)
    (force : Bool) :
    (existing = none → installDecision existing v force = .proceedFresh) ∧
    (∀ sv, existing = some sv → force = true →
      installDecision existing v force = .proceedForced) ∧
    (∀ sv, existing = some sv → force = false → sv = v →
      installDecision existing v force = .noOpSameVersion) ∧
    (∀ sv, existing = some sv → force = false → sv ≠ v →
      installDecision existing v force = .suggestUpdate) ∧
    (installDecision (some "1.0.0") "1.0.0" false = .noOpSameVersion ∧
     installDecision (some "1.0.0") "1.1.0" false = .suggestUpdate ∧
     installDecision none "1.0.0" false = .proceedFresh ∧
     installDecision (some "1.0.0") "1.1.0" true = .proceedForced) := by
  refine ⟨?_, ?_, ?_, ?_, by decide⟩
  · rintro rfl; rfl
  · rintro sv rfl rfl; rfl
  · rintro sv rfl rfl rfl; simp [installDecision]
  · rintro sv rfl rfl h; simp [installDecision, h]

/-- Witness: the gate's table evaluated at the spec's four concrete calls. -/
theorem installDecision_spec_witness :
    installDecision (some "1.0.0") "1.0.0" false = .noOpSameVersion ∧
    installDecision (some "1.0.0") "1.1.0" false = .suggestUpdate ∧
    installDecision none "1.0.0" false = .proceedFresh ∧
    installDecision (some "1.0.0") "1.1.0" true = .proceedForced :=
  (installDecision_spec (some "1.0.0") "1.0.0" false).2.2.2.2

/-! ### Behavioral installer (src/adapters/claude-code.ts, installBehavioral)

The filesystem is a partial map from path strings to file contents.  The
install-manifest.json sidecar is modelled as a structured value rather than
JSON text (JSON encoding/parsing is external plumbing); the source loads the
prior sidecar's `fileHashes ?? {}` and rewrites the whole sidecar at the end
of the call. -/

abbrev FS := String → Option String

def FS.write (fs : FS) (p c : String) : FS :=
  fun q => if q = p then some c else fs q

/-- `join` from node:path, for the forward-slash paths this repo builds. -/
def pathJoin (a b : String) : String := a ++ "/" ++ b

/-- JS object lookup on an association list with unique keys. -/
def lookupKey (m : List (String × String)) (p : String) : Option String :=
  (m.find? (fun e => e.1 = p)).map (fun e => e.2)

structure AssetSpec where
  key : String
  targetFilename : String
  pointerVerb : String
deriving DecidableEq, Repr

/-- The `assets` array of installBehavioral. -/
def behavioralAssets : List AssetSpec :=
  [⟨"claude-md", "CLAUDE.md", "Also read and follow"⟩,
   ⟨"agents-md", "AGENTS.md", "Also read"⟩]

/-- `rig.behavioral[asset.key as keyof typeof rig.behavioral]`. -/
def BehavioralSpec.get (b : BehavioralSpec) (key : String) :
    Option BehavioralConfig :=
  if key = "claude-md" then b.claudeMd
  else if key = "agents-md" then b.agentsMd
  else none

/-- JS `String.prototype.includes`. -/
def strContains (s pat : String) : Bool := decide (pat.data <:+: s.data)

/-- The file-modification gate of installBehavioral (lines 533-548): skip
iff the destination exists, the sidecar records a hash for it, the current
on-disk hash differs from the recorded hash, and the current hash also
differs from the hash of the content about to be written. -/
def modificationGate (hash : String → String) (destContent : Option String)
    (recordedHash : Option String) (newContent : String) : Bool :=
  match destContent with
  | none => false
  | some existingContent =>
    match recordedHash with
    | none => false
    | some installedHash =>
      hash existingContent ≠ installedHash ∧ hash existingContent ≠ hash newContent

structure BehavioralState where
  results : List InstallResult
  fs : FS
  manifestFiles : List (String) := []
  manifestPointers : List (String × String) := []
  fileHashes : List (String × String) := []

/-- `join(rigsDir, asset.targetFilename)` with `rigsDir = join(".claude", "rigs", rigName)`. -/
def destPathOf (rigName targetFilename : String) : String :=
  pathJoin (pathJoin (pathJoin ".claude" "rigs") rigName) targetFilename

/-- One iteration of installBehavioral's `for (const asset of assets)` loop. -/
def processAsset (hash : String → String) (rigName rigDir : String)
    (behavioral : BehavioralSpec) (manifestHashes : List (String × String))
    (st : BehavioralState) (asset : AssetSpec) : BehavioralState :=
  match behavioral.get asset.key with
  | none => st
  | some config =>
    let sourcePath := pathJoin rigDir config.source
    match st.fs sourcePath with
    | none =>
      { st with results := st.results ++
          [⟨"behavioral:" ++ asset.key, .failed,
            some ("Source not found: " ++ config.source)⟩] }
    | some content =>
      let newHash := hash content
      let destPath := destPathOf rigName asset.targetFilename
      if modificationGate hash (st.fs destPath) (lookupKey manifestHashes destPath)
          content then
        { st with results := st.results ++
            [⟨"behavioral:" ++ asset.key, .skipped,
              some ("locally modified — use --force to overwrite (" ++ destPath ++ ")")⟩] }
      else
        let fs1 := st.fs.write destPath content
        let manifestFiles := st.manifestFiles ++ [destPath]
        let fileHashes := st.fileHashes ++ [(destPath, newHash)]
        let pointerTag := "<!-- agent-rig:" ++ rigName ++ " -->"
        let pointerLine := pointerTag ++ " " ++ asset.pointerVerb ++ ": " ++ destPath
        let rootFile := asset.targetFilename
        let rootContent := (fs1 rootFile).getD ""
        let st1 :=
          if strContains rootContent pointerTag then
            { st with
                fs := fs1
                manifestFiles := manifestFiles
                fileHashes := fileHashes
                results := st.results ++
                  [⟨"behavioral:" ++ asset.key, .skipped, some "pointer already exists"⟩] }
          else
            { st with
                fs := fs1.write rootFile (pointerLine ++ "\n\n" ++ rootContent)
                manifestFiles := manifestFiles
                fileHashes := fileHashes
                manifestPointers := st.manifestPointers ++ [(rootFile, pointerLine)]
                results := st.results ++
                  [⟨"behavioral:" ++ asset.key, .installed,
                    some (destPath ++ " + pointer in " ++ rootFile)⟩] }
        if config.dependedOnBy ≠ [] then
          { st1 with results := st1.results ++
              [⟨"behavioral:" ++ asset.key ++ ":deps", .installed,
                some ("depended on by: " ++ String.intercalate ", " config.dependedOnBy)⟩] }
        else st1

/-- The install-manifest.json sidecar written at the end of the call
(the `installedAt` timestamp carries no decision-relevant information
and is omitted). -/
structure BehavioralManifest where
  rig : String
  version : String
  files : List String
  pointers : List (String × String)
  fileHashes : List (String × String)
deriving Repr

/-- installBehavioral: returns the per-asset results, the filesystem after
the call, and the rewritten sidecar (none when `rig.behavioral` is absent,
in which case the source returns before writing any sidecar). -/
def installBehavioral (hash : String → String) (rig : Rig) (rigDir : String)
    (priorManifest : Option BehavioralManifest) (fs : FS) :
    List InstallResult × FS × Option BehavioralManifest :=
  match rig.behavioral with
  | none => ([], fs, none)
  | some behavioral =>
    let manifestHashes :=
      match priorManifest with
      | some m => m.fileHashes
      | none => []
    let st := behavioralAssets.foldl
      (processAsset hash rig.name rigDir behavioral manifestHashes)
      ⟨[], fs, [], [], []⟩
    (st.results, st.fs,
      some ⟨rig.name, rig.version, st.manifestFiles, st.manifestPointers,
        st.fileHashes⟩)

/-- The namespaced destination path is strictly longer than the root file
name, so the pointer write never aliases the namespaced copy. -/
theorem destPathOf_ne_target (rigName tf : String) : destPathOf rigName tf ≠ tf := by
  intro h
  have h2 := congrArg String.length h
  simp only [destPathOf, pathJoin, String.length_append] at h2
  have e1 : ".claude".length = 7 := rfl
  have e2 : "/".length = 1 := rfl
  have e3 : "rigs".length = 4 := rfl
  omega

/-- C1: the modification gate of installBehavioral.  When the asset's source
file exists, the write to the destination is refused (with a skipped result
and no filesystem change) iff the destination exists, a prior hash is
recorded for it in the sidecar, the current on-disk hash differs from the
recorded hash, and it also differs from the hash of the incoming content;
in every other case — including an absent destination or no recorded hash —
the incoming content is written to the destination. -/
theorem behavioral_gate_spec (hash : String → String) (rigName rigDir : String)
    (behavioral : BehavioralSpec) (mh : List (String × String))
    (st : BehavioralState) (asset : AssetSpec) (config : BehavioralConfig)
    (content : String)
    (hcfg : behavioral.get asset.key = some config)
    (hsrc : st.fs (pathJoin rigDir config.source) = some content) :
    (modificationGate hash (st.fs (destPathOf rigName asset.targetFilename))
        (lookupKey mh (destPathOf rigName asset.targetFilename)) content = true ↔
      (∃ cur, st.fs (destPathOf rigName asset.targetFilename) = some cur ∧
        ∃ rec, lookupKey mh (destPathOf rigName asset.targetFilename) = some rec ∧
          hash cur ≠ rec ∧ hash cur ≠ hash content)) ∧
    (modificationGate hash (st.fs (destPathOf rigName asset.targetFilename))
        (lookupKey mh (destPathOf rigName asset.targetFilename)) content = true →
      (processAsset hash rigName rigDir behavioral mh st asset).fs = st.fs ∧
      (processAsset hash rigName rigDir behavioral mh st asset).results =
        st.results ++ [⟨"behavioral:" ++ asset.key, .skipped,
          some ("locally modified — use --force to overwrite (" ++
            destPathOf rigName asset.targetFilename ++ ")")⟩]) ∧
    (modificationGate hash (st.fs (destPathOf rigName asset.targetFilename))
        (lookupKey mh (destPathOf rigName asset.targetFilename)) content = false →
      (processAsset hash rigName rigDir behavioral mh st asset).fs
        (destPathOf rigName asset.targetFilename) = some content) := by
  refine ⟨?_, ?_, ?_⟩
  · unfold modificationGate
    cases hdest : st.fs (destPathOf rigName asset.targetFilename) with
    | none => simp
    | some cur =>
      cases hrec : lookupKey mh (destPathOf rigName asset.targetFilename) with
      | none => simp
      | some rec => simp
  · intro hgate
    unfold processAsset
    rw [hcfg]
    simp only [hsrc, hgate]
    simp
  · intro hgate
    unfold processAsset
    rw [hcfg]
    simp only [hsrc, hgate]
    simp only [Bool.false_eq_true, if_false]
    have hne := destPathOf_ne_target rigName asset.targetFilename
    split
    all_goals (try split)
    all_goals simp [FS.write, hne]

/-- Witness for the gate theorem: a donor file "NEW", a locally edited
destination "EDITED", and an empty sidecar hash map — no recorded hash, so
the gate must not fire and the write goes through. -/
theorem behavioral_gate_spec_witness :
    (processAsset (fun s => s) "demo" "rig" ⟨some ⟨"CLAUDE.md", []⟩, none⟩ []
      ⟨[], fun p =>
        if p = "rig/CLAUDE.md" then some "NEW"
        else if p = ".claude/rigs/demo/CLAUDE.md" then some "EDITED"
        else none, [], [], []⟩
      ⟨"claude-md", "CLAUDE.md", "Also read and follow"⟩).fs
      (destPathOf "demo" "CLAUDE.md") = some "NEW" :=
  (behavioral_gate_spec (fun s => s) "demo" "rig" ⟨some ⟨"CLAUDE.md", []⟩, none⟩ []
    ⟨[], fun p =>
      if p = "rig/CLAUDE.md" then some "NEW"
      else if p = ".claude/rigs/demo/CLAUDE.md" then some "EDITED"
      else none, [], [], []⟩
    ⟨"claude-md", "CLAUDE.md", "Also read and follow"⟩ ⟨"CLAUDE.md", []⟩ "NEW"
    rfl rfl).2.2 (by decide)

/-! ### The force flag versus the modification gate (claim C7)

src/commands/install.ts line 354 calls `adapter.installBehavioral(rig, dir)`.
`opts.force` is in scope at that call site (it bypasses only the
already-installed idempotency check at lines 234-254) but is not forwarded
to installBehavioral, which therefore applies the modification gate — and
prints "use --force to overwrite" — regardless of the flag. -/

/-- The behavioral phase of installCommand, with the `opts.force` flag the
call site has in scope.  As in the source, the flag does not reach the
adapter call. -/
def installCommandBehavioralPhase (hash : String → String) (_force : Bool)
    (rig : Rig) (rigDir : String) (prior : Option BehavioralManifest)
    (fs : FS) : List InstallResult × FS × Option BehavioralManifest :=
  installBehavioral hash rig rigDir prior fs

/-- A rig with one behavioral asset, a destination the user edited since the
last managed write, and a sidecar that still records the original hash. -/
def exRig : Rig :=
  { name := "demo", version := "1.0.0",
    behavioral := some ⟨some ⟨"CLAUDE.md", []⟩, none⟩ }

def exFS : FS := fun p =>
  if p = "rig/CLAUDE.md" then some "NEW"
  else if p = ".claude/rigs/demo/CLAUDE.md" then some "EDITED"
  else none

def exPrior : BehavioralManifest :=
  ⟨"demo", "0.9.0", [".claude/rigs/demo/CLAUDE.md"], [],
    [(".claude/rigs/demo/CLAUDE.md", "ORIG")]⟩

/-- C7 (code bug): with the force flag set, the behavioral phase still
refuses to overwrite the locally modified file.  The outcome is identical
with and without force, the asset is reported skipped with the
"use --force to overwrite" message, and the user's edit stays on disk —
the flag the message advertises is never consulted.  (The hash function is
instantiated with the identity, which realizes exactly the three inequality
comparisons the gate makes.) -/
theorem force_does_not_bypass_modification_gate :
    installCommandBehavioralPhase (fun s => s) true exRig "rig" (some exPrior) exFS
      = installCommandBehavioralPhase (fun s => s) false exRig "rig" (some exPrior)
        exFS ∧
    (installCommandBehavioralPhase (fun s => s) true exRig "rig" (some exPrior)
        exFS).1 =
      [⟨"behavioral:claude-md", .skipped,
        some "locally modified — use --force to overwrite (.claude/rigs/demo/CLAUDE.md)"⟩] ∧
    (installCommandBehavioralPhase (fun s => s) true exRig "rig" (some exPrior)
        exFS).2.1 ".claude/rigs/demo/CLAUDE.md" = some "EDITED" := by
  refine ⟨rfl, by decide, by decide⟩

/-! ### The rewritten sidecar forgets skipped files (claim C10) -/

theorem processAsset_hashes_are_files (hash : String → String)
    (rigName rigDir : String) (behavioral : BehavioralSpec)
    (mh : List (String × String)) (st : BehavioralState) (asset : AssetSpec)
    (h : st.fileHashes.map Prod.fst = st.manifestFiles) :
    ((processAsset hash rigName rigDir behavioral mh st asset).fileHashes).map
        Prod.fst =
      (processAsset hash rigName rigDir behavioral mh st asset).manifestFiles := by
  unfold processAsset
  rcases hcfg : behavioral.get asset.key with _ | config
  · simpa using h
  · rcases hsrc : st.fs (pathJoin rigDir config.source) with _ | content
    all_goals simp only [hsrc]
    · simpa using h
    · repeat' split
      all_goals simp [h]

theorem foldl_hashes_are_files (hash : String → String)
    (rigName rigDir : String) (behavioral : BehavioralSpec)
    (mh : List (String × String)) :
    ∀ (assets : List AssetSpec) (st : BehavioralState),
      st.fileHashes.map Prod.fst = st.manifestFiles →
      ((assets.foldl (processAsset hash rigName rigDir behavioral mh) st).fileHashes).map
          Prod.fst =
        (assets.foldl (processAsset hash rigName rigDir behavioral mh) st).manifestFiles := by
  intro assets
  induction assets with
  | nil => intro st h; exact h
  | cons a rest ih =>
    intro st h
    exact ih _ (processAsset_hashes_are_files hash rigName rigDir behavioral mh st a h)

/-- C10: the sidecar written at the end of installBehavioral records hashes
exactly for the files written during that call (first conjunct, for every
input).  Consequently, when an asset is skipped as locally modified, the
rewritten sidecar drops the previously recorded hash for its destination:
the run reports the skip, writes a sidecar with empty `files`/`fileHashes`,
and an immediately following run — finding no recorded hash — overwrites
the user's modification (second conjunct). -/
theorem sidecar_drops_skipped_hashes :
    (∀ (hash : String → String) (rig : Rig) (rigDir : String)
        (prior : Option BehavioralManifest) (fs : FS) (m : BehavioralManifest),
      (installBehavioral hash rig rigDir prior fs).2.2 = some m →
      m.fileHashes.map Prod.fst = m.files) ∧
    (∀ (hash : String → String) (name version rigDir : String)
        (config : BehavioralConfig) (pm : BehavioralManifest) (fs : FS)
        (content cur rec : String),
      fs (pathJoin rigDir config.source) = some content →
      fs (destPathOf name "CLAUDE.md") = some cur →
      lookupKey pm.fileHashes (destPathOf name "CLAUDE.md") = some rec →
      hash cur ≠ rec →
      hash cur ≠ hash content →
      (installBehavioral hash ⟨name, version, none, [], some ⟨some config, none⟩⟩
          rigDir (some pm) fs).1 =
        [⟨"behavioral:claude-md", .skipped,
          some ("locally modified — use --force to overwrite (" ++
            destPathOf name "CLAUDE.md" ++ ")")⟩] ∧
      (installBehavioral hash ⟨name, version, none, [], some ⟨some config, none⟩⟩
          rigDir (some pm) fs).2.2 = some ⟨name, version, [], [], []⟩ ∧
      (installBehavioral hash ⟨name, version, none, [], some ⟨some config, none⟩⟩
          rigDir
          ((installBehavioral hash ⟨name, version, none, [], some ⟨some config, none⟩⟩
            rigDir (some pm) fs).2.2)
          ((installBehavioral hash ⟨name, version, none, [], some ⟨some config, none⟩⟩
            rigDir (some pm) fs).2.1)).2.1
        (destPathOf name "CLAUDE.md") = some content) := by
  constructor
  · intro hash rig rigDir prior fs m hm
    unfold installBehavioral at hm
    split at hm
    · exact absurd hm (by simp)
    · simp only [Option.some.injEq] at hm
      subst hm
      exact foldl_hashes_are_files hash rig.name rigDir _ _ behavioralAssets
        ⟨[], fs, [], [], []⟩ rfl
  · intro hash name version rigDir config pm fs content cur rec hsrc hdest hrec hne1 hne2
    have hgate : modificationGate hash (fs (destPathOf name "CLAUDE.md"))
        (lookupKey pm.fileHashes (destPathOf name "CLAUDE.md")) content = true := by
      rw [hdest, hrec]
      simp [modificationGate, hne1, hne2]
    have hgate2 : modificationGate hash (fs (destPathOf name "CLAUDE.md"))
        (lookupKey ([] : List (String × String)) (destPathOf name "CLAUDE.md"))
        content = true → False := by
      rw [hdest]
      simp [modificationGate, lookupKey]
    have run1 : installBehavioral hash ⟨name, version, none, [], some ⟨some config, none⟩⟩
        rigDir (some pm) fs =
        ([⟨"behavioral:claude-md", .skipped,
          some ("locally modified — use --force to overwrite (" ++
            destPathOf name "CLAUDE.md" ++ ")")⟩], fs,
          some ⟨name, version, [], [], []⟩) := by
      unfold installBehavioral
      simp only [behavioralAssets, List.foldl]
      unfold processAsset
      simp only [BehavioralSpec.get, if_pos rfl]
      norm_num
      simp only [hsrc, hgate, if_pos rfl]
      simp
    refine ⟨by rw [run1], by rw [run1], ?_⟩
    rw [run1]
    unfold installBehavioral
    simp only [behavioralAssets, List.foldl]
    unfold processAsset
    simp only [BehavioralSpec.get, if_pos rfl]
    norm_num
    simp only [hsrc]
    have hg2 : modificationGate hash (fs (destPathOf name "CLAUDE.md"))
        (lookupKey ([] : List (String × String)) (destPathOf name "CLAUDE.md"))
        content = false := by
      rw [hdest]; simp [modificationGate, lookupKey]
    simp only [hg2, Bool.false_eq_true, if_false]
    have hne := destPathOf_ne_target name "CLAUDE.md"
    repeat' split
    all_goals first
      | (simp [FS.write, hne]; done)
      | (exfalso; simp_all; done)

/-- Witness: for the concrete modified-file scenario, the run after the
skipping run finds no recorded hash in the rewritten sidecar and overwrites
the user's "EDITED" content with the rig's "NEW" content. -/
theorem sidecar_drops_skipped_hashes_witness :
    (installBehavioral (fun s => s)
        ⟨"demo", "1.0.0", none, [], some ⟨some ⟨"CLAUDE.md", []⟩, none⟩⟩ "rig"
        ((installBehavioral (fun s => s)
          ⟨"demo", "1.0.0", none, [], some ⟨some ⟨"CLAUDE.md", []⟩, none⟩⟩ "rig"
          (some exPrior) exFS).2.2)
        ((installBehavioral (fun s => s)
          ⟨"demo", "1.0.0", none, [], some ⟨some ⟨"CLAUDE.md", []⟩, none⟩⟩ "rig"
          (some exPrior) exFS).2.1)).2.1
      (destPathOf "demo" "CLAUDE.md") = some "NEW" :=
  (sidecar_drops_skipped_hashes.2 (fun s => s) "demo" "1.0.0" "rig"
    ⟨"CLAUDE.md", []⟩ exPrior exFS "NEW" "EDITED" "ORIG"
    (by decide) (by decide) (by decide) (by decide) (by decide)).2.2

/-! ### Stored rig state (src/state.ts) -/

structure InstalledMcpServer where
  name : String
  type : McpType
deriving DecidableEq, Repr

structure InstalledBehavioral where
  file : String
  pointerFile : String
  pointerTag : String
deriving DecidableEq, Repr

/-- The persisted per-rig record (`RigState` in src/state.ts).  The
`installedAt` timestamp carries no decision-relevant information and is
omitted. -/
structure RigState where
  name : String
  version : String
  source : String
  plugins : List String
  disabledConflicts : List String
  mcpServers : List InstalledMcpServer
  behavioral : List InstalledBehavioral
  marketplaces : List String
  envProfilePath : Option String := none
deriving DecidableEq, Repr

/-! ### Diff engine (src/commands/update.ts, computeDiff) -/

/-- `[...new Set(xs)]`: deduplicate keeping the first occurrence, in order. -/
def dedupFirst : List String → List String
  | [] => []
  | a :: l => a :: (dedupFirst l).filter (fun x => x ≠ a)

theorem mem_dedupFirst (x : String) : ∀ l : List String, x ∈ dedupFirst l ↔ x ∈ l := by
  intro l
  induction l with
  | nil => simp [dedupFirst]
  | cons a rest ih =>
    by_cases hxa : x = a
    · subst hxa; simp [dedupFirst]
    · simp [dedupFirst, hxa, ih]

/-- `getAllPluginSources` from src/commands/update.ts. -/
def getAllPluginSources (rig : Rig) : List String :=
  (match rig.plugins with
   | some ps =>
     (match ps.core with | some c => [c.source] | none => []) ++
     ps.required.map (fun p => p.source) ++
     ps.recommended.map (fun p => p.source) ++
     ps.infrastructure.map (fun p => p.source)
   | none => [])

/-- `rig.plugins?.conflicts ?? []`. -/
def rigConflicts (rig : Rig) : List ConflictRef :=
  match rig.plugins with
  | some ps => ps.conflicts
  | none => []

structure RigDiff where
  versionChange : Option (String × String)
  pluginsAdded : List String
  pluginsRemoved : List String
  conflictsAdded : List ConflictRef
  conflictsRemoved : List String
  mcpAdded : List String
  mcpRemoved : List String
  hasChanges : Bool
deriving DecidableEq, Repr

/-- `computeDiff(state, rig)` — a pure function of the stored record and the
freshly loaded manifest.  JS `Set`s are modelled by first-occurrence
deduplicated lists (spread of a `Set` iterates insertion order) and `has` by
list membership. -/
def computeDiff (state : RigState) (rig : Rig) : RigDiff :=
  let versionChange :=
    if state.version ≠ rig.version then some (state.version, rig.version) else none
  let newPlugins := dedupFirst (getAllPluginSources rig)
  let oldPlugins := dedupFirst state.plugins
  let pluginsAdded := newPlugins.filter (fun p => p ∉ oldPlugins)
  let pluginsRemoved := oldPlugins.filter (fun p => p ∉ newPlugins)
  let newConflicts := rigConflicts rig
  let newConflictSources := dedupFirst (newConflicts.map (fun c => c.source))
  let oldConflictSources := dedupFirst state.disabledConflicts
  let conflictsAdded := newConflicts.filter (fun c => c.source ∉ oldConflictSources)
  let conflictsRemoved := oldConflictSources.filter (fun c => c ∉ newConflictSources)
  let newMcp := dedupFirst (rig.mcpServers.map (fun e => e.1))
  let oldMcp := dedupFirst (state.mcpServers.map (fun m => m.name))
  let mcpAdded := newMcp.filter (fun m => m ∉ oldMcp)
  let mcpRemoved := oldMcp.filter (fun m => m ∉ newMcp)
  let hasChanges := versionChange.isSome || !pluginsAdded.isEmpty ||
    !pluginsRemoved.isEmpty || !conflictsAdded.isEmpty ||
    !conflictsRemoved.isEmpty || !mcpAdded.isEmpty || !mcpRemoved.isEmpty
  ⟨versionChange, pluginsAdded, pluginsRemoved, conflictsAdded,
    conflictsRemoved, mcpAdded, mcpRemoved, hasChanges⟩

/-- C5: `hasChanges` is true exactly when a version transition exists or
some added/removed list is non-empty; and whenever the record and manifest
agree on the version string (raw comparison) and on the plugin-identifier,
conflict-source, and MCP-server-name sets, `computeDiff` reports no
changes. -/
theorem computeDiff_spec (state : RigState) (rig : Rig) :
    ((computeDiff state rig).hasChanges = true ↔
      ((computeDiff state rig).versionChange ≠ none ∨
       (computeDiff state rig).pluginsAdded ≠ [] ∨
       (computeDiff state rig).pluginsRemoved ≠ [] ∨
       (computeDiff state rig).conflictsAdded ≠ [] ∨
       (computeDiff state rig).conflictsRemoved ≠ [] ∨
       (computeDiff state rig).mcpAdded ≠ [] ∨
       (computeDiff state rig).mcpRemoved ≠ [])) ∧
    (state.version = rig.version →
     (∀ x, x ∈ getAllPluginSources rig ↔ x ∈ state.plugins) →
     (∀ x, x ∈ (rigConflicts rig).map (fun c => c.source) ↔
        x ∈ state.disabledConflicts) →
     (∀ x, x ∈ rig.mcpServers.map (fun e => e.1) ↔
        x ∈ state.mcpServers.map (fun m => m.name)) →
     (computeDiff state rig).hasChanges = false) := by
  constructor
  · simp only [computeDiff, Bool.or_eq_true, Bool.not_eq_eq_eq_not, Bool.not_true,
      List.isEmpty_eq_false, Option.isSome_iff_ne_none, ne_eq, List.isEmpty_iff]
    tauto
  · intro hv hplug hconf hmcp
    have hpa : (dedupFirst (getAllPluginSources rig)).filter
        (fun p => p ∉ dedupFirst state.plugins) = [] := by
      rw [List.filter_eq_nil_iff]
      intro a ha
      simp [mem_dedupFirst, (hplug a).mp ((mem_dedupFirst a _).mp ha)]
    have hpr : (dedupFirst state.plugins).filter
        (fun p => p ∉ dedupFirst (getAllPluginSources rig)) = [] := by
      rw [List.filter_eq_nil_iff]
      intro a ha
      simp [mem_dedupFirst, (hplug a).mpr ((mem_dedupFirst a _).mp ha)]
    have hca : (rigConflicts rig).filter
        (fun c => c.source ∉ dedupFirst state.disabledConflicts) = [] := by
      rw [List.filter_eq_nil_iff]
      intro c hc
      have : c.source ∈ (rigConflicts rig).map (fun c => c.source) :=
        List.mem_map_of_mem _ hc
      simp [mem_dedupFirst, (hconf c.source).mp this]
    have hcr : (dedupFirst state.disabledConflicts).filter
        (fun c => c ∉ dedupFirst ((rigConflicts rig).map (fun c => c.source))) = [] := by
      rw [List.filter_eq_nil_iff]
      intro a ha
      simp [mem_dedupFirst, (hconf a).mpr ((mem_dedupFirst a _).mp ha)]
    have hma : (dedupFirst (rig.mcpServers.map (fun e => e.1))).filter
        (fun m => m ∉ dedupFirst (state.mcpServers.map (fun m => m.name))) = [] := by
      rw [List.filter_eq_nil_iff]
      intro a ha
      simp [mem_dedupFirst, (hmcp a).mp ((mem_dedupFirst a _).mp ha)]
    have hmr : (dedupFirst (state.mcpServers.map (fun m => m.name))).filter
        (fun m => m ∉ dedupFirst (rig.mcpServers.map (fun e => e.1))) = [] := by
      rw [List.filter_eq_nil_iff]
      intro a ha
      simp [mem_dedupFirst, (hmcp a).mpr ((mem_dedupFirst a _).mp ha)]
    simp only [computeDiff, hv, hpa, hpr, hca, hcr, hma, hmr]
    simp

/-- Witness: a record and manifest with equal version and equal component
sets (in different order, with duplicates in the stored list) diff to "no
changes"; and `hasChanges` agrees with the emptiness of the parts. -/
theorem computeDiff_spec_witness :
    (computeDiff
      ⟨"demo", "1.0.0", "src", ["b", "a", "b"], ["c"], [⟨"m", .http⟩], [], [], none⟩
      ⟨"demo", "1.0.0",
        some ⟨some ⟨"a", none, []⟩, [⟨"b", none, []⟩], [], [], [⟨"c", none⟩]⟩,
        [("m", .http)], none⟩).hasChanges = false :=
  (computeDiff_spec _ _).2 rfl
    (by intro x; simp [getAllPluginSources]; tauto)
    (by intro x; simp [rigConflicts])
    (by intro x; simp)

/-! ### Install/update state assembly (claim C2)

src/commands/install.ts lines 386-427 and src/commands/update.ts lines
247-300 build the stored RigState from the collected OperationResults.
JS `String.prototype.replace(pat, "")` with a string pattern removes the
first occurrence of the pattern; `startsWith`/`endsWith` test affixes. -/

def firstOcc (pat : List Char) : List Char → Option Nat
  | [] => if pat.isPrefixOf [] then some 0 else none
  | c :: rest =>
    if pat.isPrefixOf (c :: rest) then some 0
    else (firstOcc pat rest).map (fun i => i + 1)

def replaceOnceList (l pat repl : List Char) : List Char :=
  match firstOcc pat l with
  | none => l
  | some i => l.take i ++ repl ++ l.drop (i + pat.length)

/-- JS `s.replace(pat, repl)` for a plain-string pattern. -/
def strReplaceOnce (s pat repl : String) : String :=
  ⟨replaceOnceList s.data pat.data repl.data⟩

/-- JS `s.endsWith(pat)`. -/
def strEndsWith (s pat : String) : Bool := decide (pat.data <:+ s.data)

/-- JS `s.startsWith(pat)`. -/
def strStartsWith (s pat : String) : Bool := decide (pat.data <+: s.data)

/-- `server?.type ?? "http"` after `rig.mcpServers?.[name]`. -/
def mcpTypeOf (rig : Rig) (name : String) : McpType :=
  ((rig.mcpServers.find? (fun e => e.1 = name)).map (fun e => e.2)).getD .http

/-- The behavioral descriptor stored for a behavioral result. -/
def behavioralEntryOf (rigName : String) (r : InstallResult) : InstalledBehavioral :=
  let key := strReplaceOnce r.component "behavioral:" ""
  let filename := if key = "claude-md" then "CLAUDE.md" else "AGENTS.md"
  ⟨".claude/rigs/" ++ rigName ++ "/" ++ filename, filename,
    "<!-- agent-rig:" ++ rigName ++ " -->"⟩

/-- The `rigState` record assembled at the end of installCommand. -/
def buildInstallState (rig : Rig) (sourceArg : String)
    (pluginResults conflictResults mcpResults behavioralResults
      marketplaceResults : List InstallResult)
    (envProfilePath : Option String) : RigState :=
  let installedPlugins := (pluginResults.filter (fun r => r.status = .installed)).map
    (fun r => strReplaceOnce r.component "plugin:" "")
  let disabledConflicts := (conflictResults.filter (fun r => r.status = .disabled)).map
    (fun r => strReplaceOnce r.component "conflict:" "")
  let installedMcp := (mcpResults.filter (fun r => r.status = .installed)).map
    (fun r =>
      let name := strReplaceOnce r.component "mcp:" ""
      (⟨name, mcpTypeOf rig name⟩ : InstalledMcpServer))
  let installedBehavioral := (behavioralResults.filter
      (fun r => r.status = .installed && !(strEndsWith r.component ":deps"))).map
    (behavioralEntryOf rig.name)
  let installedMarketplaces := (marketplaceResults.filter
      (fun r => r.status = .installed)).map
    (fun r => strReplaceOnce r.component "marketplace:" "")
  ⟨rig.name, rig.version, sourceArg, installedPlugins, disabledConflicts,
    installedMcp, installedBehavioral, installedMarketplaces, envProfilePath⟩

/-- The updated record built at the end of applyDiff. -/
def buildUpdateState (diff : RigDiff) (rig : Rig) (state : RigState)
    (allResults : List InstallResult) : RigState :=
  let newPlugins :=
    state.plugins.filter (fun p => p ∉ diff.pluginsRemoved) ++
    (allResults.filter (fun r =>
        strStartsWith r.component "plugin:" && r.status = .installed)).map
      (fun r => strReplaceOnce r.component "plugin:" "")
  let newConflicts :=
    state.disabledConflicts.filter (fun c => c ∉ diff.conflictsRemoved) ++
    (allResults.filter (fun r =>
        strStartsWith r.component "conflict:" && r.status = .disabled)).map
      (fun r => strReplaceOnce r.component "conflict:" "")
  let newMcpServers :=
    state.mcpServers.filter (fun m => m.name ∉ diff.mcpRemoved) ++
    (allResults.filter (fun r =>
        strStartsWith r.component "mcp:" && r.status = .installed)).map
      (fun r =>
        let name := strReplaceOnce r.component "mcp:" ""
        (⟨name, mcpTypeOf rig name⟩ : InstalledMcpServer))
  let newBehavioral := (allResults.filter (fun r =>
      strStartsWith r.component "behavioral:" && r.status = .installed &&
        !(strEndsWith r.component ":deps"))).map
    (behavioralEntryOf rig.name)
  ⟨rig.name, rig.version, state.source, dedupFirst newPlugins,
    dedupFirst newConflicts, newMcpServers,
    if !newBehavioral.isEmpty then newBehavioral else state.behavioral,
    state.marketplaces, none⟩

/-- C2: every identifier stored by a fresh install comes from an
OperationResult with status installed (or disabled, for conflicts) of the
completed run; every identifier stored by an update comes from such a
result of that run or is a previously stored entry the diff did not
remove.  Planned-but-failed or skipped units never enter the record. -/
theorem stored_state_from_applied_results :
    (∀ (rig : Rig) (sourceArg : String)
        (pr cr mr br mkr : List InstallResult) (env : Option String),
      (∀ x ∈ (buildInstallState rig sourceArg pr cr mr br mkr env).plugins,
        ∃ r ∈ pr, r.status = .installed ∧
          x = strReplaceOnce r.component "plugin:" "") ∧
      (∀ x ∈ (buildInstallState rig sourceArg pr cr mr br mkr env).disabledConflicts,
        ∃ r ∈ cr, r.status = .disabled ∧
          x = strReplaceOnce r.component "conflict:" "") ∧
      (∀ m ∈ (buildInstallState rig sourceArg pr cr mr br mkr env).mcpServers,
        ∃ r ∈ mr, r.status = .installed ∧
          m.name = strReplaceOnce r.component "mcp:" "") ∧
      (∀ b ∈ (buildInstallState rig sourceArg pr cr mr br mkr env).behavioral,
        ∃ r ∈ br, r.status = .installed ∧
          strEndsWith r.component ":deps" = false ∧
          b = behavioralEntryOf rig.name r)) ∧
    (∀ (diff : RigDiff) (rig : Rig) (state : RigState)
        (allResults : List InstallResult),
      (∀ x ∈ (buildUpdateState diff rig state allResults).plugins,
        (x ∈ state.plugins ∧ x ∉ diff.pluginsRemoved) ∨
        ∃ r ∈ allResults, r.status = .installed ∧
          x = strReplaceOnce r.component "plugin:" "") ∧
      (∀ x ∈ (buildUpdateState diff rig state allResults).disabledConflicts,
        (x ∈ state.disabledConflicts ∧ x ∉ diff.conflictsRemoved) ∨
        ∃ r ∈ allResults, r.status = .disabled ∧
          x = strReplaceOnce r.component "conflict:" "") ∧
      (∀ m ∈ (buildUpdateState diff rig state allResults).mcpServers,
        (m ∈ state.mcpServers ∧ m.name ∉ diff.mcpRemoved) ∨
        ∃ r ∈ allResults, r.status = .installed ∧
          m.name = strReplaceOnce r.component "mcp:" "") ∧
      (∀ b ∈ (buildUpdateState diff rig state allResults).behavioral,
        (∃ r ∈ allResults, r.status = .installed ∧
          strEndsWith r.component ":deps" = false ∧
          b = behavioralEntryOf rig.name r) ∨
        b ∈ state.behavioral)) := by
  constructor
  · intro rig sourceArg pr cr mr br mkr env
    refine ⟨?_, ?_, ?_, ?_⟩
    · intro x hx
      simp only [buildInstallState, List.mem_map, List.mem_filter] at hx
      obtain ⟨r, ⟨hr, hs⟩, rfl⟩ := hx
      exact ⟨r, hr, by simpa using hs, rfl⟩
    · intro x hx
      simp only [buildInstallState, List.mem_map, List.mem_filter] at hx
      obtain ⟨r, ⟨hr, hs⟩, rfl⟩ := hx
      exact ⟨r, hr, by simpa using hs, rfl⟩
    · intro m hm
      simp only [buildInstallState, List.mem_map, List.mem_filter] at hm
      obtain ⟨r, ⟨hr, hs⟩, rfl⟩ := hm
      exact ⟨r, hr, by simpa using hs, rfl⟩
    · intro b hb
      simp only [buildInstallState, List.mem_map, List.mem_filter,
        Bool.and_eq_true, Bool.not_eq_eq_eq_not, Bool.not_true] at hb
      obtain ⟨r, ⟨hr, hs1, hs2⟩, rfl⟩ := hb
      exact ⟨r, hr, by simpa using hs1, by simpa using hs2, rfl⟩
  · intro diff rig state allResults
    refine ⟨?_, ?_, ?_, ?_⟩
    · intro x hx
      simp only [buildUpdateState, mem_dedupFirst, List.mem_append,
        List.mem_filter, List.mem_map, Bool.and_eq_true] at hx
      rcases hx with ⟨hmem, hrem⟩ | ⟨r, ⟨hr, _, hs⟩, rfl⟩
      · exact Or.inl ⟨hmem, by simpa using hrem⟩
      · exact Or.inr ⟨r, hr, by simpa using hs, rfl⟩
    · intro x hx
      simp only [buildUpdateState, mem_dedupFirst, List.mem_append,
        List.mem_filter, List.mem_map, Bool.and_eq_true] at hx
      rcases hx with ⟨hmem, hrem⟩ | ⟨r, ⟨hr, _, hs⟩, rfl⟩
      · exact Or.inl ⟨hmem, by simpa using hrem⟩
      · exact Or.inr ⟨r, hr, by simpa using hs, rfl⟩
    · intro m hm
      simp only [buildUpdateState, List.mem_append, List.mem_filter,
        List.mem_map, Bool.and_eq_true] at hm
      rcases hm with ⟨hmem, hrem⟩ | ⟨r, ⟨hr, _, hs⟩, rfl⟩
      · exact Or.inl ⟨hmem, by simpa using hrem⟩
      · exact Or.inr ⟨r, hr, by simpa using hs, rfl⟩
    · intro b hb
      by_cases hbe : ((allResults.filter (fun r =>
          strStartsWith r.component "behavioral:" && r.status = .installed &&
            !(strEndsWith r.component ":deps"))).map
        (behavioralEntryOf rig.name)).isEmpty
      · right
        simp only [buildUpdateState, hbe, Bool.not_true] at hb
        simpa using hb
      · left
        simp only [buildUpdateState, hbe, Bool.not_false, if_pos] at hb
        simp only [List.mem_map, List.mem_filter, Bool.and_eq_true,
          Bool.not_eq_eq_eq_not, Bool.not_true] at hb
        obtain ⟨r, ⟨hr, ⟨_, hs1⟩, hs2⟩, rfl⟩ := hb
        exact ⟨r, hr, by simpa using hs1, by simpa using hs2, rfl⟩

/-- Witness: a run with one installed and one failed plugin stores exactly
the installed identifier, and the update path keeps a surviving stored
entry. -/
theorem stored_state_from_applied_results_witness :
    (∃ r ∈ [(⟨"plugin:p1", .installed, none⟩ : InstallResult),
            ⟨"plugin:p2", .failed, none⟩],
      r.status = .installed ∧
        "p1" = strReplaceOnce r.component "plugin:" "") ∧
    (("q" ∈ (⟨"d", "1", "s", ["q"], [], [], [], [], none⟩ : RigState).plugins ∧
        "q" ∉ ([] : List String)) ∨
      ∃ r ∈ ([] : List InstallResult), r.status = .installed ∧
        "q" = strReplaceOnce r.component "plugin:" "") := by
  constructor
  · exact (stored_state_from_applied_results.1
      ⟨"d", "1", none, [], none⟩ "s"
      [⟨"plugin:p1", .installed, none⟩, ⟨"plugin:p2", .failed, none⟩]
      [] [] [] [] none).1 "p1" (by decide)
  · exact (stored_state_from_applied_results.2
      ⟨none, [], [], [], [], [], [], false⟩ ⟨"d", "1", none, [], none⟩
      ⟨"d", "1", "s", ["q"], [], [], [], [], none⟩ []).1 "q" (by decide)

/-! ### Dependency orderer (src/adapters/claude-code.ts, topoSortPlugins)

The source's `visit` terminates because `visited` only grows; here the
recursion carries explicit fuel and the top-level call supplies
`allKeys.length + 1`, which the sufficiency lemmas show is never exhausted
(each nested level starts from a strictly larger visited set). -/

structure TState where
  vis : List String
  ord : List PluginRef

/-- `bySource.get(s)`: a JS `Map` built from an entry list keeps the last
entry written for each key. -/
def lookupSource (plugins : List PluginRef) (s : String) : Option PluginRef :=
  plugins.reverse.find? (fun p => p.source = s)

/-- The recursive `visit`: mark the identifier visited before exploring its
declared dependencies (skipping identifiers with no entry), then append the
entry to the output. -/
def visit (plugins : List PluginRef) : Nat → String → TState → TState
  | 0, _, st => st
  | fuel + 1, s, st =>
    if s ∈ st.vis then st
    else
      match lookupSource plugins s with
      | none => ⟨s :: st.vis, st.ord⟩
      | some p =>
        let st1 := p.depends.foldl (fun acc d => visit plugins fuel d acc)
          ⟨s :: st.vis, st.ord⟩
        ⟨st1.vis, st1.ord ++ [p]⟩

/-- The `for (const plugin of plugins) visit(plugin.source)` loop (and the
inner loop over `plugin.depends`). -/
def visitList (plugins : List PluginRef) (fuel : Nat) (ds : List String)
    (st : TState) : TState :=
  ds.foldl (fun acc d => visit plugins fuel d acc) st

/-- Every identifier the traversal can ever mark visited. -/
def allKeys (plugins : List PluginRef) : List String :=
  plugins.map (fun p => p.source) ++
    (plugins.map (fun p => p.depends)).flatten

def topoSortPlugins (plugins : List PluginRef) : List PluginRef :=
  (visitList plugins ((allKeys plugins).length + 1)
    (plugins.map (fun p => p.source)) ⟨[], []⟩).ord

theorem lookupSource_mem {plugins : List PluginRef} {s : String} {p : PluginRef}
    (h : lookupSource plugins s = some p) : p ∈ plugins ∧ p.source = s := by
  unfold lookupSource at h
  refine ⟨List.mem_reverse.mp (List.mem_of_find?_eq_some h), ?_⟩
  have := List.find?_some h
  simpa using this

theorem find?_source_self :
    ∀ (l : List PluginRef), ((l.map (fun p => p.source)).Nodup) →
      ∀ {p : PluginRef}, p ∈ l → l.find? (fun q => q.source = p.source) = some p := by
  intro l
  induction l with
  | nil => intro _ p hp; cases hp
  | cons a rest ih =>
    intro hn p hp
    rcases List.mem_cons.mp hp with rfl | hmem
    · simp [List.find?]
    · have hne : ¬(a.source = p.source) := by
        intro he
        have hm : p.source ∈ rest.map (fun p => p.source) :=
          List.mem_map_of_mem _ hmem
        rw [List.map_cons] at hn
        rw [he] at hn
        exact (List.nodup_cons.mp hn).1 hm
      simp only [List.find?, decide_eq_false hne]
      exact ih (by rw [List.map_cons] at hn; exact (List.nodup_cons.mp hn).2) hmem

theorem lookupSource_self {plugins : List PluginRef}
    (hnodup : (plugins.map (fun p => p.source)).Nodup)
    {p : PluginRef} (hp : p ∈ plugins) :
    lookupSource plugins p.source = some p := by
  unfold lookupSource
  have hnr : ((plugins.reverse).map (fun p => p.source)).Nodup := by
    rw [List.map_reverse]
    exact List.nodup_reverse.mpr hnodup
  exact find?_source_self plugins.reverse hnr (List.mem_reverse.mpr hp)

/-- The basic shape facts about one `visit` call: the visited set only
grows, the output is extended by a block of new entries, each new entry was
unvisited at entry, has a `bySource` entry, and is visited at exit; and
every newly visited identifier is the visited one or some declared
dependency. -/
def VisitShape (plugins : List PluginRef) (s : String) (st st' : TState) : Prop :=
  st.vis ⊆ st'.vis ∧
  (∃ Δ, st'.ord = st.ord ++ Δ ∧
    ∀ q ∈ Δ, q.source ∉ st.vis ∧ lookupSource plugins q.source = some q ∧
      q.source ∈ st'.vis) ∧
  (∀ v ∈ st'.vis, v ∈ st.vis ∨ v = s ∨ v ∈ (plugins.map (fun p => p.depends)).flatten)

def FoldShape (plugins : List PluginRef) (ds : List String) (st st' : TState) : Prop :=
  st.vis ⊆ st'.vis ∧
  (∃ Δ, st'.ord = st.ord ++ Δ ∧
    ∀ q ∈ Δ, q.source ∉ st.vis ∧ lookupSource plugins q.source = some q ∧
      q.source ∈ st'.vis) ∧
  (∀ v ∈ st'.vis, v ∈ st.vis ∨ v ∈ ds ∨ v ∈ (plugins.map (fun p => p.depends)).flatten)

theorem foldShape_of_visitShape (plugins : List PluginRef) (fuel : Nat)
    (hstep : ∀ s st, VisitShape plugins s st (visit plugins fuel s st)) :
    ∀ ds st, FoldShape plugins ds st (visitList plugins fuel ds st) := by
  intro ds
  induction ds with
  | nil =>
    intro st
    exact ⟨fun v hv => hv, ⟨[], by simp [visitList], by simp⟩, fun v hv => Or.inl hv⟩
  | cons d rest ih =>
    intro st
    have h1 := hstep d st
    have h2 := ih (visit plugins fuel d st)
    obtain ⟨m1, ⟨Δ1, he1, hq1⟩, hv1⟩ := h1
    obtain ⟨m2, ⟨Δ2, he2, hq2⟩, hv2⟩ := h2
    have hfold : visitList plugins fuel (d :: rest) st =
        visitList plugins fuel rest (visit plugins fuel d st) := by
      simp [visitList, List.foldl_cons]
    rw [hfold]
    refine ⟨fun v hv => m2 (m1 hv), ⟨Δ1 ++ Δ2, by rw [he2, he1, List.append_assoc], ?_⟩, ?_⟩
    · intro q hq
      rcases List.mem_append.mp hq with hq | hq
      · obtain ⟨ha, hb, hc⟩ := hq1 q hq
        exact ⟨ha, hb, m2 hc⟩
      · obtain ⟨ha, hb, hc⟩ := hq2 q hq
        exact ⟨fun hin => ha (m1 hin), hb, hc⟩
    · intro v hv
      rcases hv2 v hv with hv | hv | hv
      · rcases hv1 v hv with hv | hv | hv
        · exact Or.inl hv
        · exact Or.inr (Or.inl (by simp [hv]))
        · exact Or.inr (Or.inr hv)
      · exact Or.inr (Or.inl (List.mem_cons_of_mem _ hv))
      · exact Or.inr (Or.inr hv)

theorem visitShape_all (plugins : List PluginRef) :
    ∀ fuel s st, VisitShape plugins s st (visit plugins fuel s st) := by
  intro fuel
  induction fuel with
  | zero =>
    intro s st
    exact ⟨fun v hv => hv, ⟨[], by simp [visit], by simp⟩, fun v hv => Or.inl hv⟩
  | succ fuel ih =>
    intro s st
    by_cases hs : s ∈ st.vis
    · rw [show visit plugins (fuel + 1) s st = st by simp [visit, hs]]
      exact ⟨fun v hv => hv, ⟨[], by simp, by simp⟩, fun v hv => Or.inl hv⟩
    · cases hl : lookupSource plugins s with
      | none =>
        rw [show visit plugins (fuel + 1) s st = ⟨s :: st.vis, st.ord⟩ by
          simp [visit, hs, hl]]
        refine ⟨fun v hv => List.mem_cons_of_mem _ hv, ⟨[], by simp, by simp⟩, ?_⟩
        intro v hv
        rcases List.mem_cons.mp hv with rfl | hv
        · exact Or.inr (Or.inl rfl)
        · exact Or.inl hv
      | some p =>
        have hps : p.source = s := (lookupSource_mem hl).2
        have hpm : p ∈ plugins := (lookupSource_mem hl).1
        have hfold := foldShape_of_visitShape plugins fuel ih p.depends
          ⟨s :: st.vis, st.ord⟩
        rw [show visit plugins (fuel + 1) s st =
            ⟨(visitList plugins fuel p.depends ⟨s :: st.vis, st.ord⟩).vis,
             (visitList plugins fuel p.depends ⟨s :: st.vis, st.ord⟩).ord ++ [p]⟩ by
          simp [visit, hs, hl, visitList]]
        obtain ⟨m1, ⟨Δ1, he1, hq1⟩, hv1⟩ := hfold
        have hdeps : ∀ d ∈ p.depends, d ∈ (plugins.map (fun p => p.depends)).flatten := by
          intro d hd
          exact List.mem_flatten.mpr ⟨p.depends, List.mem_map_of_mem _ hpm, hd⟩
        refine ⟨?_, ⟨Δ1 ++ [p], by rw [he1]; simp, ?_⟩, ?_⟩
        · intro v hv
          exact m1 (List.mem_cons_of_mem _ hv)
        · intro q hq
          rcases List.mem_append.mp hq with hq | hq
          · obtain ⟨ha, hb, hc⟩ := hq1 q hq
            exact ⟨fun hin => ha (List.mem_cons_of_mem _ hin), hb, hc⟩
          · rcases List.mem_singleton.mp hq with rfl
            rw [hps]
            exact ⟨hs, by rw [← hps]; rw [hps]; exact hl,
              m1 (List.mem_cons_self _ _)⟩
        · intro v hv
          rcases hv1 v hv with hv | hv | hv
          · rcases List.mem_cons.mp hv with rfl | hv
            · exact Or.inr (Or.inl rfl)
            · exact Or.inl hv
          · exact Or.inr (Or.inr (hdeps v hv))
          · exact Or.inr (Or.inr hv)

/-! Fuel accounting: the number of not-yet-visited keys strictly decreases
whenever `visit` marks a fresh identifier, so `allKeys.length + 1` fuel is
never exhausted. -/

def unvisited (plugins : List PluginRef) (vis : List String) : Nat :=
  (allKeys plugins).countP (fun k => decide (k ∉ vis))

theorem countP_le_of_imp {α : Type} (p q : α → Bool) :
    ∀ l : List α, (∀ a ∈ l, p a = true → q a = true) →
      l.countP p ≤ l.countP q := by
  intro l
  induction l with
  | nil => intro _; simp
  | cons a rest ih =>
    intro h
    rw [List.countP_cons, List.countP_cons]
    have hr := ih (fun x hx => h x (List.mem_cons_of_mem _ hx))
    by_cases hpa : p a = true
    · rw [hpa, h a (List.mem_cons_self _ _) hpa]
      omega
    · rw [Bool.not_eq_true] at hpa
      rw [hpa]
      simp only [Bool.false_eq_true, if_false]
      split
      all_goals omega

theorem countP_lt_of_witness {α : Type} (p q : α → Bool) :
    ∀ l : List α, (∀ a ∈ l, p a = true → q a = true) →
      ∀ a ∈ l, q a = true → p a = false → l.countP p < l.countP q := by
  intro l
  induction l with
  | nil => intro _ a ha; cases ha
  | cons b rest ih =>
    intro h a ha hqa hpa
    rw [List.countP_cons, List.countP_cons]
    rcases List.mem_cons.mp ha with rfl | hmem
    · rw [hqa, hpa]
      have := countP_le_of_imp p q rest (fun x hx => h x (List.mem_cons_of_mem _ hx))
      simp only [Bool.false_eq_true, if_false, if_true]
      omega
    · have hr := ih (fun x hx => h x (List.mem_cons_of_mem _ hx)) a hmem hqa hpa
      by_cases hpb : p b = true
      · rw [hpb, h b (List.mem_cons_self _ _) hpb]
        omega
      · rw [Bool.not_eq_true] at hpb
        rw [hpb]
        simp only [Bool.false_eq_true, if_false]
        split
        all_goals omega

theorem unvisited_mono (plugins : List PluginRef) {vis vis' : List String}
    (h : vis ⊆ vis') : unvisited plugins vis' ≤ unvisited plugins vis := by
  apply countP_le_of_imp
  intro a _ ha
  simp only [decide_eq_true_eq] at ha ⊢
  exact fun hin => ha (h hin)

theorem unvisited_cons_lt (plugins : List PluginRef) {vis : List String}
    {s : String} (hk : s ∈ allKeys plugins) (hs : s ∉ vis) :
    unvisited plugins (s :: vis) < unvisited plugins vis := by
  apply countP_lt_of_witness _ _ _ ?_ s hk (by simpa using hs)
    (by simp)
  intro a _ ha
  simp only [decide_eq_true_eq] at ha ⊢
  exact fun hin => ha (List.mem_cons_of_mem _ hin)

theorem lookupSource_key {plugins : List PluginRef} {s : String}
    {p : PluginRef} (h : lookupSource plugins s = some p) :
    s ∈ allKeys plugins := by
  obtain ⟨hp, hs⟩ := lookupSource_mem h
  exact List.mem_append_left _ (hs ▸ List.mem_map_of_mem _ hp)

/-! The done invariant: outside a set `G` of identifiers whose visits are
still in progress, every visited identifier with a `bySource` entry already
has that entry in the output. -/

def DoneInv (plugins : List PluginRef) (G : List String) (st : TState) : Prop :=
  ∀ v ∈ st.vis, v ∈ G ∨ ∀ p, lookupSource plugins v = some p → p ∈ st.ord

theorem doneInv_all (plugins : List PluginRef) :
    ∀ fuel : Nat,
      (∀ s st (G : List String), unvisited plugins st.vis + 1 ≤ fuel →
        DoneInv plugins G st → DoneInv plugins G (visit plugins fuel s st)) ∧
      (∀ ds st (G : List String), unvisited plugins st.vis + 1 ≤ fuel →
        DoneInv plugins G st → DoneInv plugins G (visitList plugins fuel ds st)) := by
  intro fuel
  induction fuel with
  | zero =>
    constructor
    all_goals intro _ st G hf
    all_goals omega
  | succ fuel ih =>
    have hvisit : ∀ s st (G : List String), unvisited plugins st.vis + 1 ≤ fuel + 1 →
        DoneInv plugins G st → DoneInv plugins G (visit plugins (fuel + 1) s st) := by
      intro s st G hf hdone
      by_cases hs : s ∈ st.vis
      · rw [show visit plugins (fuel + 1) s st = st by simp [visit, hs]]
        exact hdone
      · cases hl : lookupSource plugins s with
        | none =>
          rw [show visit plugins (fuel + 1) s st = ⟨s :: st.vis, st.ord⟩ by
            simp [visit, hs, hl]]
          intro v hv
          rcases List.mem_cons.mp hv with rfl | hv
          · exact Or.inr (fun p hp => by rw [hl] at hp; cases hp)
          · exact hdone v hv
        | some p =>
          rw [show visit plugins (fuel + 1) s st =
              ⟨(visitList plugins fuel p.depends ⟨s :: st.vis, st.ord⟩).vis,
               (visitList plugins fuel p.depends ⟨s :: st.vis, st.ord⟩).ord ++ [p]⟩ by
            simp [visit, hs, hl, visitList]]
          have hf1 : unvisited plugins (s :: st.vis) + 1 ≤ fuel := by
            have := unvisited_cons_lt plugins (lookupSource_key hl) hs
            omega
          have hdone1 : DoneInv plugins (s :: G) ⟨s :: st.vis, st.ord⟩ := by
            intro v hv
            rcases List.mem_cons.mp hv with rfl | hv
            · exact Or.inl (List.mem_cons_self _ _)
            · rcases hdone v hv with hg | hd
              · exact Or.inl (List.mem_cons_of_mem _ hg)
              · exact Or.inr hd
          have hst1 := (ih.2) p.depends ⟨s :: st.vis, st.ord⟩ (s :: G) hf1 hdone1
          intro v hv
          rcases hst1 v hv with hg | hd
          · rcases List.mem_cons.mp hg with rfl | hg
            · refine Or.inr (fun p' hp' => ?_)
              rw [hl] at hp'
              cases hp'
              exact List.mem_append_right _ (List.mem_singleton.mpr rfl)
            · exact Or.inl hg
          · exact Or.inr (fun p' hp' => List.mem_append_left _ (hd p' hp'))
    refine ⟨hvisit, ?_⟩
    intro ds
    induction ds with
    | nil =>
      intro st G _ hdone
      exact hdone
    | cons d rest ihl =>
      intro st G hf hdone
      have h1 := hvisit d st G hf hdone
      have hmono : unvisited plugins (visit plugins (fuel + 1) d st).vis + 1 ≤
          fuel + 1 := by
        have := unvisited_mono plugins (visitShape_all plugins (fuel + 1) d st).1
        omega
      have h2 := ihl (visit plugins (fuel + 1) d st) G hmono h1
      rw [show visitList plugins (fuel + 1) (d :: rest) st =
          visitList plugins (fuel + 1) rest (visit plugins (fuel + 1) d st) by
        simp [visitList, List.foldl_cons]]
      exact h2

/-! The output's sources are distinct and all visited. -/

def SourcesOK (st : TState) : Prop :=
  ((st.ord.map (fun q => q.source)).Nodup) ∧ ∀ q ∈ st.ord, q.source ∈ st.vis

theorem sourcesOK_all (plugins : List PluginRef) :
    ∀ fuel : Nat,
      (∀ s st, SourcesOK st → SourcesOK (visit plugins fuel s st)) ∧
      (∀ ds st, SourcesOK st → SourcesOK (visitList plugins fuel ds st)) := by
  intro fuel
  induction fuel with
  | zero =>
    constructor
    · intro s st h
      simpa [visit] using h
    · intro ds st h
      induction ds generalizing st with
      | nil => simpa [visitList] using h
      | cons d rest ihl =>
        rw [show visitList plugins 0 (d :: rest) st =
            visitList plugins 0 rest (visit plugins 0 d st) by
          simp [visitList, List.foldl_cons]]
        exact ihl _ (by simpa [visit] using h)
  | succ fuel ih =>
    have hvisit : ∀ s st, SourcesOK st → SourcesOK (visit plugins (fuel + 1) s st) := by
      intro s st h
      by_cases hs : s ∈ st.vis
      · rw [show visit plugins (fuel + 1) s st = st by simp [visit, hs]]
        exact h
      · cases hl : lookupSource plugins s with
        | none =>
          rw [show visit plugins (fuel + 1) s st = ⟨s :: st.vis, st.ord⟩ by
            simp [visit, hs, hl]]
          exact ⟨h.1, fun q hq => List.mem_cons_of_mem _ (h.2 q hq)⟩
        | some p =>
          have hps : p.source = s := (lookupSource_mem hl).2
          rw [show visit plugins (fuel + 1) s st =
              ⟨(visitList plugins fuel p.depends ⟨s :: st.vis, st.ord⟩).vis,
               (visitList plugins fuel p.depends ⟨s :: st.vis, st.ord⟩).ord ++ [p]⟩ by
            simp [visit, hs, hl, visitList]]
          have h1 : SourcesOK ⟨s :: st.vis, st.ord⟩ :=
            ⟨h.1, fun q hq => List.mem_cons_of_mem _ (h.2 q hq)⟩
          have h2 := ih.2 p.depends ⟨s :: st.vis, st.ord⟩ h1
          have hshape := foldShape_of_visitShape plugins fuel
            (visitShape_all plugins fuel) p.depends ⟨s :: st.vis, st.ord⟩
          obtain ⟨hmono, ⟨Δ, hΔe, hΔq⟩, _⟩ := hshape
          have hsnot : s ∉ ((visitList plugins fuel p.depends
              ⟨s :: st.vis, st.ord⟩).ord.map (fun q => q.source)) := by
            intro hmem
            obtain ⟨q, hq, hqs⟩ := List.mem_map.mp hmem
            rw [hΔe] at hq
            rcases List.mem_append.mp hq with hq | hq
            · exact hs (hqs ▸ h.2 q hq)
            · exact (hΔq q hq).1 (hqs ▸ List.mem_cons_self _ _)
          constructor
          · rw [List.map_append]
            rw [List.nodup_append]
            refine ⟨h2.1, by simp [hps], ?_⟩
            intro a ha hb
            simp only [List.map_cons, List.map_nil, List.mem_singleton] at hb
            rw [hb, hps] at ha
            exact hsnot ha
          · intro q hq
            rcases List.mem_append.mp hq with hq | hq
            · exact h2.2 q hq
            · rcases List.mem_singleton.mp hq with rfl
              rw [hps]
              exact hmono (List.mem_cons_self _ _)
    refine ⟨hvisit, ?_⟩
    intro ds
    induction ds with
    | nil =>
      intro st h
      exact h
    | cons d rest ihl =>
      intro st h
      rw [show visitList plugins (fuel + 1) (d :: rest) st =
          visitList plugins (fuel + 1) rest (visit plugins (fuel + 1) d st) by
        simp [visitList, List.foldl_cons]]
      exact ihl _ (hvisit d st h)

/-! Relative order in the output list. -/

def ordBefore (l : List PluginRef) (x y : PluginRef) : Prop :=
  ∃ l1 l2 l3, l = l1 ++ x :: l2 ++ y :: l3

theorem ordBefore_append {l : List PluginRef} {x y : PluginRef}
    (h : ordBefore l x y) (t : List PluginRef) : ordBefore (l ++ t) x y := by
  obtain ⟨l1, l2, l3, rfl⟩ := h
  exact ⟨l1, l2, l3 ++ t, by simp⟩

theorem ordBefore_snoc {l : List PluginRef} {x : PluginRef} (y : PluginRef)
    (hx : x ∈ l) : ordBefore (l ++ [y]) x y := by
  obtain ⟨l1, l2, rfl⟩ := List.append_of_mem hx
  exact ⟨l1, l2, [], by simp⟩

/-- During a traversal with in-progress set `G`: every dependency edge of an
already-output entry either points into `G` (a broken cycle) or at an entry
output strictly earlier. -/
def OrdInv (plugins : List PluginRef) (G : List String) (st : TState) : Prop :=
  ∀ q ∈ st.ord, ∀ d ∈ q.depends, ∀ qd, lookupSource plugins d = some qd →
    d ∈ G ∨ ordBefore st.ord qd q

/-- The ordering facts established by one `visit` (or one dependency loop),
under a topological rank `r` for the dependency graph restricted to the
input: the ordering invariant is preserved, every newly output entry ranks
below the visited identifier, and the visited identifier's own entry is in
the output afterwards. -/
theorem ordInv_all (plugins : List PluginRef) (r : String → Nat)
    (hedge : ∀ s p, lookupSource plugins s = some p → ∀ d ∈ p.depends,
      (∃ q, lookupSource plugins d = some q) → r d < r s) :
    ∀ fuel : Nat,
      (∀ s st (G : List String),
        unvisited plugins st.vis + 1 ≤ fuel →
        ((∃ q, lookupSource plugins s = some q) → ∀ g ∈ G, r s < r g) →
        DoneInv plugins G st → OrdInv plugins G st →
        OrdInv plugins G (visit plugins fuel s st) ∧
        (∀ q ∈ (visit plugins fuel s st).ord, q ∈ st.ord ∨
          ((∃ qq, lookupSource plugins s = some qq) ∧
            (q.source = s ∨ r q.source < r s))) ∧
        (∀ p, lookupSource plugins s = some p →
          p ∈ (visit plugins fuel s st).ord)) ∧
      (∀ ds st (G : List String),
        unvisited plugins st.vis + 1 ≤ fuel →
        (∀ d ∈ ds, (∃ q, lookupSource plugins d = some q) → ∀ g ∈ G, r d < r g) →
        DoneInv plugins G st → OrdInv plugins G st →
        OrdInv plugins G (visitList plugins fuel ds st) ∧
        (∀ q ∈ (visitList plugins fuel ds st).ord, q ∈ st.ord ∨
          ∃ d ∈ ds, (∃ qd, lookupSource plugins d = some qd) ∧
            (q.source = d ∨ r q.source < r d)) ∧
        (∀ d ∈ ds, ∀ p, lookupSource plugins d = some p →
          p ∈ (visitList plugins fuel ds st).ord)) := by
  intro fuel
  induction fuel with
  | zero =>
    constructor
    all_goals intro _ st G hf
    all_goals omega
  | succ fuel ih =>
    have hvisit : ∀ s st (G : List String),
        unvisited plugins st.vis + 1 ≤ fuel + 1 →
        ((∃ q, lookupSource plugins s = some q) → ∀ g ∈ G, r s < r g) →
        DoneInv plugins G st → OrdInv plugins G st →
        OrdInv plugins G (visit plugins (fuel + 1) s st) ∧
        (∀ q ∈ (visit plugins (fuel + 1) s st).ord, q ∈ st.ord ∨
          ((∃ qq, lookupSource plugins s = some qq) ∧
            (q.source = s ∨ r q.source < r s))) ∧
        (∀ p, lookupSource plugins s = some p →
          p ∈ (visit plugins (fuel + 1) s st).ord) := by
      intro s st G hf hG hdone hord
      by_cases hs : s ∈ st.vis
      · rw [show visit plugins (fuel + 1) s st = st by simp [visit, hs]]
        refine ⟨hord, fun q hq => Or.inl hq, ?_⟩
        intro p hp
        rcases hdone s hs with hg | hd
        · exact absurd (hG ⟨p, hp⟩ s hg) (lt_irrefl _)
        · exact hd p hp
      · cases hl : lookupSource plugins s with
        | none =>
          rw [show visit plugins (fuel + 1) s st = ⟨s :: st.vis, st.ord⟩ by
            simp [visit, hs, hl]]
          refine ⟨hord, fun q hq => Or.inl hq, ?_⟩
          intro p hp
          simp [hl] at hp
        | some p =>
          have hps : p.source = s := (lookupSource_mem hl).2
          rw [show visit plugins (fuel + 1) s st =
              ⟨(visitList plugins fuel p.depends ⟨s :: st.vis, st.ord⟩).vis,
               (visitList plugins fuel p.depends ⟨s :: st.vis, st.ord⟩).ord ++ [p]⟩ by
            simp [visit, hs, hl, visitList]]
          have hf1 : unvisited plugins (s :: st.vis) + 1 ≤ fuel := by
            have := unvisited_cons_lt plugins (lookupSource_key hl) hs
            omega
          have hGs : ∀ g ∈ G, r s < r g := hG ⟨p, hl⟩
          have hG1 : ∀ d ∈ p.depends, (∃ q, lookupSource plugins d = some q) →
              ∀ g ∈ s :: G, r d < r g := by
            intro d hd hdq g hg
            have hds : r d < r s := hedge s p hl d hd hdq
            rcases List.mem_cons.mp hg with rfl | hg
            · exact hds
            · exact lt_trans hds (hGs g hg)
          have hdone1 : DoneInv plugins (s :: G) ⟨s :: st.vis, st.ord⟩ := by
            intro v hv
            rcases List.mem_cons.mp hv with rfl | hv
            · exact Or.inl (List.mem_cons_self _ _)
            · rcases hdone v hv with hg | hd
              · exact Or.inl (List.mem_cons_of_mem _ hg)
              · exact Or.inr hd
          have hord1 : OrdInv plugins (s :: G) ⟨s :: st.vis, st.ord⟩ := by
            intro q hq d hd qd hqd
            rcases hord q hq d hd qd hqd with hg | hb
            · exact Or.inl (List.mem_cons_of_mem _ hg)
            · exact Or.inr hb
          obtain ⟨hordL, hnewL, hdoneL⟩ :=
            ih.2 p.depends ⟨s :: st.vis, st.ord⟩ (s :: G) hf1 hG1 hdone1 hord1
          have hshape := foldShape_of_visitShape plugins fuel
            (visitShape_all plugins fuel) p.depends ⟨s :: st.vis, st.ord⟩
          obtain ⟨hmono1, ⟨Δ1, hΔe, hΔq⟩, _⟩ := hshape
          set st1 := visitList plugins fuel p.depends ⟨s :: st.vis, st.ord⟩ with hst1
          have hnew_rank : ∀ q ∈ st1.ord, q ∉ st.ord → r q.source < r s := by
            intro q hq hqo
            rcases hnewL q hq with hq2 | ⟨d, hd, hdq, hcase⟩
            · exact absurd hq2 hqo
            · have hds : r d < r s := hedge s p hl d hd hdq
              rcases hcase with rfl' | hlt
              · rw [rfl']; exact hds
              · exact lt_trans hlt hds
          have hnew_lookup : ∀ q ∈ st1.ord, q ∉ st.ord →
              lookupSource plugins q.source = some q ∧ q.source ≠ s := by
            intro q hq hqo
            rw [hΔe] at hq
            rcases List.mem_append.mp hq with hq | hq
            · exact absurd hq hqo
            · obtain ⟨hnv, hlk, _⟩ := hΔq q hq
              exact ⟨hlk, fun he => hnv (he ▸ List.mem_cons_self _ _)⟩
          have hlift : ∀ x y : PluginRef, ordBefore st.ord x y →
              ordBefore (st1.ord ++ [p]) x y := by
            intro x y hb
            rw [hΔe]
            exact ordBefore_append (ordBefore_append hb _) _
          refine ⟨?_, ?_, ?_⟩
          · -- the ordering invariant for the extended output
            intro q hq d hd qd hqd
            rcases List.mem_append.mp hq with hq | hq
            · by_cases hqo : q ∈ st.ord
              · rcases hord q hqo d hd qd hqd with hg | hb
                · exact Or.inl hg
                · exact Or.inr (hlift _ _ hb)
              · rcases hordL q hq d hd qd hqd with hg | hb
                · rcases List.mem_cons.mp hg with heq | hg
                  · -- a new entry cannot depend on the in-progress `s`
                    exfalso
                    obtain ⟨hlk, _⟩ := hnew_lookup q hq hqo
                    have h1 : r d < r q.source :=
                      hedge q.source q hlk d hd ⟨p, by rw [heq]; exact hl⟩
                    have h2 : r q.source < r s := hnew_rank q hq hqo
                    rw [heq] at h1
                    omega
                  · exact Or.inl hg
                · exact Or.inr (ordBefore_append hb _)
            · rcases List.mem_singleton.mp hq with rfl
              right
              have hqd1 : qd ∈ st1.ord := hdoneL d hd qd hqd
              exact ordBefore_snoc _ hqd1
          · -- every new entry ranks below s (or is s itself)
            intro q hq
            rcases List.mem_append.mp hq with hq | hq
            · by_cases hqo : q ∈ st.ord
              · exact Or.inl hqo
              · exact Or.inr ⟨⟨p, rfl⟩, Or.inr (hnew_rank q hq hqo)⟩
            · have hqp : q = p := List.mem_singleton.mp hq
              refine Or.inr ⟨⟨p, rfl⟩, Or.inl ?_⟩
              rw [hqp, hps]
          · -- s's own entry is output
            intro p' hp'
            cases hp'
            exact List.mem_append_right _ (List.mem_singleton.mpr rfl)
    refine ⟨hvisit, ?_⟩
    intro ds
    induction ds with
    | nil =>
      intro st G _ _ _ hord
      exact ⟨hord, fun q hq => Or.inl hq, fun d hd => absurd hd (List.not_mem_nil d)⟩
    | cons d rest ihl =>
      intro st G hf hG hdone hord
      have hfold : visitList plugins (fuel + 1) (d :: rest) st =
          visitList plugins (fuel + 1) rest (visit plugins (fuel + 1) d st) := by
        simp [visitList, List.foldl_cons]
      obtain ⟨ho1, hn1, hd1⟩ := hvisit d st G hf
        (hG d (List.mem_cons_self _ _)) hdone hord
      have hdone2 : DoneInv plugins G (visit plugins (fuel + 1) d st) :=
        (doneInv_all plugins (fuel + 1)).1 d st G hf hdone
      have hmono : unvisited plugins (visit plugins (fuel + 1) d st).vis + 1 ≤
          fuel + 1 := by
        have := unvisited_mono plugins (visitShape_all plugins (fuel + 1) d st).1
        omega
      obtain ⟨ho2, hn2, hd2⟩ := ihl (visit plugins (fuel + 1) d st) G hmono
        (fun d' hd' => hG d' (List.mem_cons_of_mem _ hd')) hdone2 ho1
      have hext : ∃ Δ, (visitList plugins (fuel + 1) rest
          (visit plugins (fuel + 1) d st)).ord =
          (visit plugins (fuel + 1) d st).ord ++ Δ :=
        ⟨_, ((foldShape_of_visitShape plugins (fuel + 1)
          (visitShape_all plugins (fuel + 1)) rest
          (visit plugins (fuel + 1) d st)).2.1).choose_spec.1⟩
      rw [hfold]
      refine ⟨ho2, ?_, ?_⟩
      · intro q hq
        rcases hn2 q hq with hq2 | ⟨d', hd', hp'⟩
        · rcases hn1 q hq2 with hq3 | ⟨hlk, hcase⟩
          · exact Or.inl hq3
          · exact Or.inr ⟨d, List.mem_cons_self _ _, hlk, hcase⟩
        · exact Or.inr ⟨d', List.mem_cons_of_mem _ hd', hp'⟩
      · intro d' hd' p' hp'
        rcases List.mem_cons.mp hd' with rfl | hd'
        · obtain ⟨Δ, hΔ⟩ := hext
          rw [hΔ]
          exact List.mem_append_left _ (hd1 p' hp')
        · exact hd2 d' hd' p' hp'

/-- C4: under distinct sources and a topological rank for the dependency
graph restricted to the input (the standard finite-graph formulation of
acyclicity: every declared dependency edge whose endpoints both occur in
the input decreases the rank), topoSortPlugins outputs every input ref
exactly once, outputs nothing else, and places every dependency present in
the input before its dependent.  In particular, for refs A, B, C with
C depending on B and B on A, every permutation of [A, B, C] sorts to
A before B before C. -/
theorem topoSortPlugins_spec (plugins : List PluginRef)
    (hnodup : (plugins.map (fun p => p.source)).Nodup)
    (r : String → Nat)
    (hrank : ∀ p ∈ plugins, ∀ d ∈ p.depends, ∀ q ∈ plugins, q.source = d →
      r d < r p.source) :
    (∀ p ∈ plugins, (topoSortPlugins plugins).count p = 1) ∧
    (∀ q ∈ topoSortPlugins plugins, q ∈ plugins) ∧
    (∀ R ∈ plugins, ∀ d ∈ R.depends, ∀ D ∈ plugins, D.source = d →
      ordBefore (topoSortPlugins plugins) D R) := by
  have hedge : ∀ s p, lookupSource plugins s = some p → ∀ d ∈ p.depends,
      (∃ q, lookupSource plugins d = some q) → r d < r s := by
    intro s p hl d hd hq
    obtain ⟨q, hq⟩ := hq
    obtain ⟨hpm, hps⟩ := lookupSource_mem hl
    obtain ⟨hqm, hqs⟩ := lookupSource_mem hq
    rw [← hps]
    exact hrank p hpm d hd q hqm hqs
  have hinit_done : DoneInv plugins [] ⟨[], []⟩ := by
    intro v hv; cases hv
  have hinit_ord : OrdInv plugins [] ⟨[], []⟩ := by
    intro q hq; cases hq
  have hf : unvisited plugins ([] : List String) + 1 ≤
      (allKeys plugins).length + 1 := by
    have : unvisited plugins ([] : List String) ≤ (allKeys plugins).length :=
      List.countP_le_length _
    omega
  obtain ⟨hord, hnew, hdone⟩ := (ordInv_all plugins r hedge
    ((allKeys plugins).length + 1)).2 (plugins.map (fun p => p.source))
    ⟨[], []⟩ [] hf (fun d _ _ g hg => absurd hg (List.not_mem_nil g))
    hinit_done hinit_ord
  have hmem : ∀ p ∈ plugins, p ∈ topoSortPlugins plugins := by
    intro p hp
    exact hdone p.source (List.mem_map_of_mem _ hp) p (lookupSource_self hnodup hp)
  have hsrcok : SourcesOK (visitList plugins ((allKeys plugins).length + 1)
      (plugins.map (fun p => p.source)) ⟨[], []⟩) :=
    (sourcesOK_all plugins _).2 _ _ ⟨List.nodup_nil, fun q hq => absurd hq
      (List.not_mem_nil q)⟩
  have hnodup_out : (topoSortPlugins plugins).Nodup :=
    List.Nodup.of_map _ hsrcok.1
  refine ⟨?_, ?_, ?_⟩
  · intro p hp
    exact List.count_eq_one_of_mem hnodup_out (hmem p hp)
  · intro q hq
    have hshape := foldShape_of_visitShape plugins ((allKeys plugins).length + 1)
      (visitShape_all plugins _) (plugins.map (fun p => p.source)) ⟨[], []⟩
    obtain ⟨_, ⟨Δ, hΔe, hΔq⟩, _⟩ := hshape
    have hq2 : q ∈ Δ := by
      have : q ∈ ([] : List PluginRef) ++ Δ := by
        rw [← hΔe]; exact hq
      simpa using this
    exact (lookupSource_mem (hΔq q hq2).2.1).1
  · intro R hR d hd D hD hDs
    have hlD : lookupSource plugins d = some D := by
      rw [← hDs]; exact lookupSource_self hnodup hD
    rcases hord R (hmem R hR) d hd D hlD with hg | hb
    · exact absurd hg (List.not_mem_nil d)
    · exact hb

/-- Witness: the A ← B ← C dependency chain, presented in the order
[C, B, A], sorts with A before B and B before C; hypotheses are discharged
with the explicit rank a ↦ 0, b ↦ 1, c ↦ 2. -/
theorem topoSortPlugins_spec_witness :
    ordBefore
      (topoSortPlugins
        [⟨"c", none, ["b"]⟩, ⟨"b", none, ["a"]⟩, ⟨"a", none, []⟩])
      ⟨"a", none, []⟩ ⟨"b", none, ["a"]⟩ ∧
    ordBefore
      (topoSortPlugins
        [⟨"c", none, ["b"]⟩, ⟨"b", none, ["a"]⟩, ⟨"a", none, []⟩])
      ⟨"b", none, ["a"]⟩ ⟨"c", none, ["b"]⟩ :=
  ⟨(topoSortPlugins_spec
      [⟨"c", none, ["b"]⟩, ⟨"b", none, ["a"]⟩, ⟨"a", none, []⟩]
      (by decide)
      (fun s => if s = "a" then 0 else if s = "b" then 1 else 2)
      (by decide)).2.2
    ⟨"b", none, ["a"]⟩ (by decide) "a" (by decide) ⟨"a", none, []⟩
    (by decide) rfl,
   (topoSortPlugins_spec
      [⟨"c", none, ["b"]⟩, ⟨"b", none, ["a"]⟩, ⟨"a", none, []⟩]
      (by decide)
      (fun s => if s = "a" then 0 else if s = "b" then 1 else 2)
      (by decide)).2.2
    ⟨"c", none, ["b"]⟩ (by decide) "b" (by decide) ⟨"b", none, ["a"]⟩
    (by decide) rfl⟩

/-! ### Stability of the dependency orderer (claim C8) -/

/-- Input on which stability fails: C depends on B; A and B declare no
dependencies; A precedes B in the input. -/
def stabilityCex : List PluginRef :=
  [⟨"c", none, ["b"]⟩, ⟨"a", none, []⟩, ⟨"b", none, []⟩]

/-- Counterexample to C8 as stated: A and B declare no dependencies and A
precedes B in the input, yet the output is [B, C, A] — visiting C first
pulls its dependency B to the front, so B now precedes A. -/
theorem topoSortPlugins_stability_cex :
    (⟨"a", none, []⟩ : PluginRef).depends = [] ∧
    (⟨"b", none, []⟩ : PluginRef).depends = [] ∧
    List.indexOf (⟨"a", none, []⟩ : PluginRef) stabilityCex <
      List.indexOf (⟨"b", none, []⟩ : PluginRef) stabilityCex ∧
    topoSortPlugins stabilityCex =
      [⟨"b", none, []⟩, ⟨"c", none, ["b"]⟩, ⟨"a", none, []⟩] ∧
    List.indexOf (⟨"b", none, []⟩ : PluginRef) (topoSortPlugins stabilityCex) <
      List.indexOf (⟨"a", none, []⟩ : PluginRef) (topoSortPlugins stabilityCex) := by
  decide

theorem visitList_append (plugins : List PluginRef) (fuel : Nat)
    (a b : List String) (st : TState) :
    visitList plugins fuel (a ++ b) st =
      visitList plugins fuel b (visitList plugins fuel a st) := by
  simp [visitList, List.foldl_append]

theorem visitList_cons (plugins : List PluginRef) (fuel : Nat)
    (d : String) (ds : List String) (st : TState) :
    visitList plugins fuel (d :: ds) st =
      visitList plugins fuel ds (visit plugins fuel d st) := by
  simp [visitList, List.foldl_cons]

/-- A no-dependency ref that is unvisited is pushed immediately. -/
theorem visit_push_simple (plugins : List PluginRef) (fuel : Nat)
    {X : PluginRef} (st : TState)
    (hvis : X.source ∉ st.vis)
    (hlook : lookupSource plugins X.source = some X)
    (hdep : X.depends = []) :
    visit plugins (fuel + 1) X.source st =
      ⟨X.source :: st.vis, st.ord ++ [X]⟩ := by
  simp [visit, hvis, hlook, hdep, visitList]

/-- C8 amended: two refs that declare no dependencies and are not declared
as a dependency by any ref in the input keep their input relative order in
the output.  (As stated, the claim fails when some later ref depends on one
of them: see the counterexample.) -/
theorem topoSortPlugins_stable_undepended (plugins : List PluginRef)
    (hnodup : (plugins.map (fun p => p.source)).Nodup)
    (X Y : PluginRef)
    (hXd : X.depends = []) (hYd : Y.depends = [])
    (hXnd : ∀ p ∈ plugins, X.source ∉ p.depends)
    (hYnd : ∀ p ∈ plugins, Y.source ∉ p.depends)
    (l1 l2 l3 : List PluginRef)
    (hsplit : plugins = l1 ++ X :: l2 ++ Y :: l3) :
    ordBefore (topoSortPlugins plugins) X Y := by
  have hX : X ∈ plugins := by rw [hsplit]; simp
  have hY : Y ∈ plugins := by rw [hsplit]; simp
  have hds : plugins.map (fun p => p.source) =
      l1.map (fun p => p.source) ++ X.source ::
        (l2.map (fun p => p.source) ++ Y.source :: l3.map (fun p => p.source)) := by
    rw [hsplit]; simp
  -- extract the distinctness facts
  have hmap := hnodup
  rw [hds] at hmap
  obtain ⟨hn1, hn2, hdisj⟩ := List.nodup_append.mp hmap
  have hXl1 : X.source ∉ l1.map (fun p => p.source) := by
    intro hmem
    exact hdisj hmem (List.mem_cons_self _ _)
  obtain ⟨hXrest, hn3⟩ := List.nodup_cons.mp hn2
  have hYl1 : Y.source ∉ l1.map (fun p => p.source) := by
    intro hmem
    exact hdisj hmem (List.mem_cons_of_mem _
      (List.mem_append_right _ (List.mem_cons_self _ _)))
  have hYX : Y.source ≠ X.source := by
    intro he
    exact hXrest (he ▸ List.mem_append_right _ (List.mem_cons_self _ _))
  obtain ⟨hn4, hn5, hdisj2⟩ := List.nodup_append.mp hn3
  have hYl2 : Y.source ∉ l2.map (fun p => p.source) := by
    intro hmem
    exact hdisj2 hmem (List.mem_cons_self _ _)
  -- X.source and Y.source never occur among the declared dependencies
  have hXdeps : X.source ∉ (plugins.map (fun p => p.depends)).flatten := by
    intro hmem
    obtain ⟨ds, hds2, hmem2⟩ := List.mem_flatten.mp hmem
    obtain ⟨p, hp, rfl⟩ := List.mem_map.mp hds2
    exact hXnd p hp hmem2
  have hYdeps : Y.source ∉ (plugins.map (fun p => p.depends)).flatten := by
    intro hmem
    obtain ⟨ds, hds2, hmem2⟩ := List.mem_flatten.mp hmem
    obtain ⟨p, hp, rfl⟩ := List.mem_map.mp hds2
    exact hYnd p hp hmem2
  -- decompose the top-level fold around the turns of X and Y
  set F := (allKeys plugins).length with hF
  set st1 := visitList plugins (F + 1) (l1.map (fun p => p.source)) ⟨[], []⟩
    with hst1
  have hsh1 := foldShape_of_visitShape plugins (F + 1)
    (visitShape_all plugins (F + 1)) (l1.map (fun p => p.source)) ⟨[], []⟩
  have hXv1 : X.source ∉ st1.vis := by
    intro hmem
    rcases hsh1.2.2 X.source hmem with h | h | h
    · cases h
    · exact hXl1 h
    · exact hXdeps h
  have hst2 : visit plugins (F + 1) X.source st1 =
      ⟨X.source :: st1.vis, st1.ord ++ [X]⟩ :=
    visit_push_simple plugins F st1 hXv1 (lookupSource_self hnodup hX) hXd
  set st3 := visitList plugins (F + 1) (l2.map (fun p => p.source))
    (⟨X.source :: st1.vis, st1.ord ++ [X]⟩ : TState) with hst3
  have hsh3 := foldShape_of_visitShape plugins (F + 1)
    (visitShape_all plugins (F + 1)) (l2.map (fun p => p.source))
    (⟨X.source :: st1.vis, st1.ord ++ [X]⟩ : TState)
  have hYv3 : Y.source ∉ st3.vis := by
    intro hmem
    rcases hsh3.2.2 Y.source hmem with h | h | h
    · rcases List.mem_cons.mp h with he | h2
      · exact hYX he
      · rcases hsh1.2.2 Y.source h2 with h3 | h3 | h3
        · cases h3
        · exact hYl1 h3
        · exact hYdeps h3
    · exact hYl2 h
    · exact hYdeps h
  have hst4 : visit plugins (F + 1) Y.source st3 =
      ⟨Y.source :: st3.vis, st3.ord ++ [Y]⟩ :=
    visit_push_simple plugins F st3 hYv3 (lookupSource_self hnodup hY) hYd
  have hXin3 : X ∈ st3.ord := by
    obtain ⟨_, ⟨Δ, hΔe, _⟩, _⟩ := hsh3
    rw [hΔe]
    exact List.mem_append_left _ (List.mem_append_right _ (List.mem_singleton.mpr rfl))
  have hbefore4 : ordBefore (st3.ord ++ [Y]) X Y := ordBefore_snoc Y hXin3
  -- reassemble the full sort
  have htopo : topoSortPlugins plugins =
      (visitList plugins (F + 1) (l3.map (fun p => p.source))
        (⟨Y.source :: st3.vis, st3.ord ++ [Y]⟩ : TState)).ord := by
    unfold topoSortPlugins
    rw [hds, visitList_append, visitList_cons, visitList_append, visitList_cons]
    rw [← hst1, hst2, ← hst3, hst4]
  have hsh5 := foldShape_of_visitShape plugins (F + 1)
    (visitShape_all plugins (F + 1)) (l3.map (fun p => p.source))
    (⟨Y.source :: st3.vis, st3.ord ++ [Y]⟩ : TState)
  obtain ⟨_, ⟨Δ, hΔe, _⟩, _⟩ := hsh5
  rw [htopo, hΔe]
  exact ordBefore_append hbefore4 Δ

/-- Witness for the amended stability claim: in [C(dep d), A, B] where A
and B have no dependencies and nothing depends on them, A stays before B. -/
theorem topoSortPlugins_stable_undepended_witness :
    ordBefore
      (topoSortPlugins [⟨"c", none, ["d"]⟩, ⟨"a", none, []⟩, ⟨"b", none, []⟩])
      ⟨"a", none, []⟩ ⟨"b", none, []⟩ :=
  topoSortPlugins_stable_undepended
    [⟨"c", none, ["d"]⟩, ⟨"a", none, []⟩, ⟨"b", none, []⟩]
    (by decide) ⟨"a", none, []⟩ ⟨"b", none, []⟩ rfl rfl
    (by decide) (by decide)
    [⟨"c", none, ["d"]⟩] [] [] rfl

/-! ### Tagged env blocks (src/env.ts: writeEnvBlock / removeEnvBlock)

File contents are edited character-wise, so they are modelled as `List
Char` (the `.data` of the source's strings).  The source's regex
`escapeRegExp(begin) + "[\s\S]*?" + escapeRegExp(end)` (with optional
`\n?` on both sides in the remove case) matches literally — escapeRegExp
neutralizes every metacharacter — at the leftmost possible position, with
the lazy middle ending at the first occurrence of the end marker;
`splitFirst` below realizes exactly that leftmost-first-occurrence
splitting. -/

def beginTagL (rig : List Char) : List Char :=
  "# --- agent-rig: ".data ++ rig ++ " ---".data

def endTagL (rig : List Char) : List Char :=
  "# --- end agent-rig: ".data ++ rig ++ " ---".data

/-- One body line of the block: `export K="V"` (or fish's `set -gx`). -/
def exportLine (fish : Bool) (kv : List Char × List Char) : List Char :=
  if fish then
    "set -gx ".data ++ kv.1 ++ " \"".data ++ kv.2 ++ "\"".data
  else
    "export ".data ++ kv.1 ++ "=\"".data ++ kv.2 ++ "\"".data

/-- `lines.join("\n")`. -/
def joinNl : List (List Char) → List Char
  | [] => []
  | [l] => l
  | l :: r :: rest => l ++ '\n' :: joinNl (r :: rest)

def formatEnvBlock (rig : List Char) (env : List (List Char × List Char))
    (fish : Bool) : List Char :=
  joinNl ([beginTagL rig] ++ env.map (exportLine fish) ++ [endTagL rig])

/-- Split at the leftmost occurrence of `pat`: `some (before, after)` with
`l = before ++ pat ++ after` and no occurrence starting earlier.  (All
patterns this file uses are non-empty.) -/
def splitFirst (pat : List Char) : List Char → Option (List Char × List Char)
  | [] => none
  | c :: rest =>
    if pat <+: (c :: rest) then some ([], (c :: rest).drop pat.length)
    else (splitFirst pat rest).map (fun pr => (c :: pr.1, pr.2))

/-- JS `content.trimEnd()` (ASCII whitespace). -/
def trimEnd (l : List Char) : List Char :=
  (l.reverse.dropWhile Char.isWhitespace).reverse

/-- `content.replace(/\n{3,}/g, "\n\n")`: every maximal run of three or
more newlines keeps only its first two.  `k` counts the newlines of the
current run already seen. -/
def collapseGo : Nat → List Char → List Char
  | _, [] => []
  | k, c :: rest =>
    if c = '\n' then
      if 2 ≤ k then collapseGo (k + 1) rest
      else c :: collapseGo (k + 1) rest
    else c :: collapseGo 0 rest

def collapseRuns (l : List Char) : List Char := collapseGo 0 l

/-- writeEnvBlock: create the file with the block alone, replace the span
from the begin marker to the first end marker after it, or append after
trimming trailing whitespace with a blank-line separator.  (When the begin
marker is present but no end marker follows, the regex has no match and
the content is rewritten unchanged.) -/
def writeEnvBlock (rig : List Char) (env : List (List Char × List Char))
    (fish : Bool) (content : Option (List Char)) : List Char :=
  let block := formatEnvBlock rig env fish
  match content with
  | none => block ++ ['\n']
  | some c =>
    if (beginTagL rig) <:+: c then
      match splitFirst (beginTagL rig) c with
      | none => c
      | some (before, afterBegin) =>
        match splitFirst (endTagL rig) afterBegin with
        | none => c
        | some (_mid, afterEnd) => before ++ block ++ afterEnd
    else trimEnd c ++ ('\n' :: '\n' :: block) ++ ['\n']

/-- removeEnvBlock: `none` models "no write" (missing file or absent
marker); otherwise the matched span — including one optional newline on
each side, as in the source's `\n?...\n?` — is replaced by one newline,
runs of three or more newlines are collapsed, trailing whitespace trimmed,
and a final newline appended. -/
def removeEnvBlock (rig : List Char) (content : Option (List Char)) :
    Option (List Char) :=
  match content with
  | none => none
  | some c =>
    if (beginTagL rig) <:+: c then
      let spliced :=
        match splitFirst (beginTagL rig) c with
        | none => c
        | some (before, afterBegin) =>
          match splitFirst (endTagL rig) afterBegin with
          | none => c
          | some (_mid, afterEnd) =>
            let b2 := if before.getLast? = some '\n' then before.dropLast
              else before
            let a2 := match afterEnd with
              | '\n' :: r => r
              | r => r
            b2 ++ '\n' :: a2
      some (trimEnd (collapseRuns spliced) ++ ['\n'])
    else none

/-! Elementary facts about prefixes, suffixes and occurrences, oriented
around a separator character that the pattern does not contain. -/

theorem pref_ext {α : Type} {pat t : List α} (u : List α) (h : pat <+: t) :
    pat <+: t ++ u := by
  obtain ⟨s, rfl⟩ := h
  exact ⟨s ++ u, by simp⟩

theorem pref_short {α : Type} {pat a b : List α} (h : pat <+: a ++ b)
    (hlen : pat.length ≤ a.length) : pat <+: a := by
  obtain ⟨s, hs⟩ := h
  have h1 : a.take pat.length = pat := by
    have h2 : (a ++ b).take pat.length = a.take pat.length := by
      rw [List.take_append_eq_append_take]
      have h3 : pat.length - a.length = 0 := by omega
      rw [h3]
      simp
    rw [← hs, List.take_append_eq_append_take] at h2
    simp at h2
    exact h2.symm
  have h4 := List.take_append_drop pat.length a
  rw [h1] at h4
  exact ⟨a.drop pat.length, h4⟩

/-- A pattern avoiding the separator `x` starts at a position in `a` iff it
fits before the separator. -/
theorem pref_boundary {α : Type} {pat a b : List α} {x : α} (hx : x ∉ pat) :
    pat <+: a ++ x :: b ↔ pat <+: a := by
  constructor
  · intro h
    by_cases hlen : pat.length ≤ a.length
    · exact pref_short h hlen
    · exfalso
      obtain ⟨s, hs⟩ := h
      have hget : (pat ++ s)[a.length]? = some x := by
        rw [hs]
        rw [List.getElem?_append_right (le_refl a.length)]
        simp
      rw [List.getElem?_append] at hget
      rw [if_pos (by omega : a.length < pat.length)] at hget
      have hmem : x ∈ pat := by
        have h5 : pat.get? a.length = some x := by
          rw [List.get?_eq_getElem?]
          exact hget
        exact List.get?_mem h5
      exact hx hmem
  · intro h
    exact pref_ext _ h

theorem suf_split {α : Type} {t a b : List α} (h : t <:+ a ++ b) :
    t <:+ b ∨ ∃ u, u <:+ a ∧ u ≠ [] ∧ t = u ++ b := by
  induction a with
  | nil => exact Or.inl (by simpa using h)
  | cons x a2 ih =>
    rw [List.cons_append] at h
    rcases List.suffix_cons_iff.mp h with he | h2
    · exact Or.inr ⟨x :: a2, List.suffix_refl _, by simp, by simpa using he⟩
    · rcases ih h2 with h3 | ⟨u, hu, hne, rfl⟩
      · exact Or.inl h3
      · exact Or.inr ⟨u, List.suffix_cons_iff.mpr (Or.inr hu), hne, rfl⟩

theorem inf_iff_suf_pref {α : Type} {pat l : List α} :
    pat <:+: l ↔ ∃ t, t <:+ l ∧ pat <+: t := by
  constructor
  · rintro ⟨s, u, rfl⟩
    exact ⟨pat ++ u, ⟨s, by simp⟩, ⟨u, rfl⟩⟩
  · rintro ⟨t, ⟨s, rfl⟩, ⟨u, rfl⟩⟩
    exact ⟨s, u, by simp⟩

theorem inf_boundary {α : Type} {pat a b : List α} {x : α} (hx : x ∉ pat)
    (hne : pat ≠ []) :
    pat <:+: a ++ x :: b ↔ pat <:+: a ∨ pat <:+: b := by
  constructor
  · intro h
    obtain ⟨t, ht, hp⟩ := inf_iff_suf_pref.mp h
    rcases suf_split ht with h2 | ⟨u, hu, hune, rfl⟩
    · rcases List.suffix_cons_iff.mp h2 with he | h3
      · subst he
        exfalso
        cases pat with
        | nil => exact hne rfl
        | cons c p2 =>
          obtain ⟨s, hs⟩ := hp
          rw [List.cons_append] at hs
          have hcx : c = x := (List.cons.injEq _ _ _ _).mp hs |>.1
          exact hx (hcx ▸ List.mem_cons_self c p2)
      · exact Or.inr (inf_iff_suf_pref.mpr ⟨t, h3, hp⟩)
    · have hpu : pat <+: u := (pref_boundary hx).mp hp
      exact Or.inl (inf_iff_suf_pref.mpr ⟨u, hu, hpu⟩)
  · rintro (⟨s, u, hs⟩ | ⟨s, u, hs⟩)
    · exact ⟨s, u ++ x :: b, by rw [← hs]; simp⟩
    · exact ⟨a ++ x :: s, u, by rw [← hs]; simp⟩

/-- Infix of a prefix/suffix/infix is infix of the whole. -/
theorem inf_of_pref {α : Type} {pat a c : List α} (h : pat <:+: a)
    (h2 : a <+: c) : pat <:+: c := by
  obtain ⟨s, u, rfl⟩ := h
  obtain ⟨t, rfl⟩ := h2
  exact ⟨s, u ++ t, by simp⟩

theorem inf_of_suf {α : Type} {pat a c : List α} (h : pat <:+: a)
    (h2 : a <:+ c) : pat <:+: c := by
  obtain ⟨s, u, rfl⟩ := h
  obtain ⟨t, rfl⟩ := h2
  exact ⟨t ++ s, u, by simp⟩

theorem joinNl_cons (l r : List Char) (rest : List (List Char)) :
    joinNl (l :: r :: rest) = l ++ '\n' :: joinNl (r :: rest) := rfl

theorem joinNl_snoc :
    ∀ (lines : List (List Char)), lines ≠ [] → ∀ (last : List Char),
      joinNl (lines ++ [last]) = joinNl lines ++ '\n' :: last := by
  intro lines
  induction lines with
  | nil => intro h; exact absurd rfl h
  | cons l rest ih =>
    intro _ last
    cases rest with
    | nil => rfl
    | cons r rest2 =>
      simp only [List.cons_append]
      simp only [List.cons_append] at ih
      rw [joinNl_cons, ih (by simp) last]
      rw [show joinNl (l :: r :: rest2) = l ++ '\n' :: joinNl (r :: rest2) from rfl]
      simp

/-- An occurrence of a newline-free pattern in a joined line list lies
within one of the lines. -/
theorem joinNl_occ {pat : List Char} (hx : '\n' ∉ pat) (hne : pat ≠ []) :
    ∀ lines, pat <:+: joinNl lines → ∃ line ∈ lines, pat <:+: line := by
  intro lines
  induction lines with
  | nil =>
    intro h
    obtain ⟨s, u, hs⟩ := h
    rw [show joinNl [] = [] from rfl] at hs
    exfalso
    have := List.append_eq_nil.mp ((List.append_eq_nil.mp hs).1)
    exact hne this.2
  | cons l rest ih =>
    cases rest with
    | nil => intro h; exact ⟨l, by simp, by simpa [joinNl] using h⟩
    | cons r rest2 =>
      intro h
      rw [joinNl_cons] at h
      rcases (inf_boundary hx hne).mp h with h1 | h2
      · exact ⟨l, by simp, h1⟩
      · obtain ⟨line, hm, hi⟩ := ih h2
        exact ⟨line, List.mem_cons_of_mem _ hm, hi⟩

theorem inf_cons {α : Type} {pat : List α} {c : α} {l : List α} :
    pat <:+: (c :: l) ↔ pat <+: (c :: l) ∨ pat <:+: l := by
  constructor
  · intro h
    obtain ⟨t, ht, hp⟩ := inf_iff_suf_pref.mp h
    rcases List.suffix_cons_iff.mp ht with rfl | h2
    · exact Or.inl hp
    · exact Or.inr (inf_iff_suf_pref.mpr ⟨t, h2, hp⟩)
  · rintro (h | h)
    · obtain ⟨u, hu⟩ := h
      exact ⟨[], u, by simpa using hu⟩
    · exact inf_of_suf h (List.suffix_cons c l)

/-! splitFirst: soundness, minimality, and computation rules. -/

theorem splitFirst_none {pat : List Char} (hne : pat ≠ []) :
    ∀ {l : List Char}, splitFirst pat l = none ↔ ¬ pat <:+: l := by
  intro l
  induction l with
  | nil =>
    constructor
    · intro _ h
      obtain ⟨s, u, hs⟩ := h
      have := List.append_eq_nil.mp ((List.append_eq_nil.mp hs).1)
      exact hne this.2
    · intro _
      rfl
  | cons c rest ih =>
    rw [show splitFirst pat (c :: rest) =
        if pat <+: (c :: rest) then some ([], (c :: rest).drop pat.length)
        else (splitFirst pat rest).map (fun pr => (c :: pr.1, pr.2)) from rfl]
    split
    · rename_i hp
      constructor
      · intro h; cases h
      · intro h
        exact absurd (inf_cons.mpr (Or.inl hp)) h
    · rename_i hp
      rcases hsp : splitFirst pat rest with _ | pr
      · constructor
        · intro _ hinf
          rcases inf_cons.mp hinf with h2 | h2
          · exact hp h2
          · exact (ih.mp hsp) h2
        · intro _
          rfl
      · constructor
        · intro hcon
          simp at hcon
        · intro hinf
          exfalso
          apply hinf
          have h2 : ¬ splitFirst pat rest = none := by rw [hsp]; simp
          have h3 : pat <:+: rest := by
            by_contra h4
            exact h2 (ih.mpr h4)
          exact inf_cons.mpr (Or.inr h3)

theorem splitFirst_append {pat : List Char} :
    ∀ (v rest : List Char),
      (∀ t, t <:+ v → t ≠ [] → ¬ pat <+: (t ++ rest)) →
      splitFirst pat (v ++ rest) =
        (splitFirst pat rest).map (fun pr => (v ++ pr.1, pr.2)) := by
  intro v
  induction v with
  | nil =>
    intro rest _
    rcases h : splitFirst pat rest with _ | pr
    · simp [h]
    · simp [h]
  | cons x v2 ih =>
    intro rest h
    rw [List.cons_append]
    rw [show splitFirst pat (x :: (v2 ++ rest)) =
        if pat <+: (x :: (v2 ++ rest)) then
          some ([], (x :: (v2 ++ rest)).drop pat.length)
        else (splitFirst pat (v2 ++ rest)).map (fun pr => (x :: pr.1, pr.2))
      from rfl]
    rw [if_neg (by
      have := h (x :: v2) (List.suffix_refl _) (by simp)
      simpa using this)]
    rw [ih rest (fun t ht htne =>
      h t (List.suffix_cons_iff.mpr (Or.inr ht)) htne)]
    rcases h2 : splitFirst pat rest with _ | pr
    · simp [h2]
    · simp [h2]

theorem splitFirst_head {pat : List Char} (a : List Char) (hne : pat ≠ []) :
    splitFirst pat (pat ++ a) = some ([], a) := by
  cases pat with
  | nil => exact absurd rfl hne
  | cons p ps =>
    rw [List.cons_append]
    rw [show splitFirst (p :: ps) (p :: (ps ++ a)) =
        if (p :: ps) <+: (p :: (ps ++ a)) then
          some ([], (p :: (ps ++ a)).drop (p :: ps).length)
        else (splitFirst (p :: ps) (ps ++ a)).map (fun pr => (p :: pr.1, pr.2))
      from rfl]
    rw [if_pos ⟨a, by simp⟩]
    have hd : (p :: (ps ++ a)).drop (p :: ps).length = a := by
      rw [show (p :: (ps ++ a)) = (p :: ps) ++ a by simp]
      exact List.drop_left _ _
    rw [hd]

/-! Occurrence counting (number of start positions, overlaps included). -/

theorem inf_of_pref_self {α : Type} {pat u : List α} (h : pat <+: u) :
    pat <:+: u := by
  obtain ⟨s, rfl⟩ := h
  exact ⟨[], s, by simp⟩

/-- A non-empty pattern without newlines never starts at a newline. -/
theorem pref_nl_head {pat : List Char} (hn : '\n' ∉ pat) (hne : pat ≠ [])
    (l : List Char) : ¬ pat <+: ('\n' :: l) := by
  intro h
  cases pat with
  | nil => exact hne rfl
  | cons p ps =>
    obtain ⟨t, ht⟩ := h
    rw [List.cons_append] at ht
    exact hn (((List.cons.injEq _ _ _ _).mp ht).1 ▸ List.mem_cons_self p ps)

/-! Collapse (`\n{3,}` → `\n\n`) and trimEnd. -/

theorem collapseGo_cons (k : Nat) (c : Char) (rest : List Char) :
    collapseGo k (c :: rest) =
      if c = '\n' then
        if 2 ≤ k then collapseGo (k + 1) rest
        else c :: collapseGo (k + 1) rest
      else c :: collapseGo 0 rest := rfl

theorem collapseGo_nl_lo {k : Nat} (hk : k < 2) (rest : List Char) :
    collapseGo k ('\n' :: rest) = '\n' :: collapseGo (k + 1) rest := by
  rw [collapseGo_cons, if_pos rfl, if_neg (by omega)]

theorem collapseGo_nl_hi {k : Nat} (hk : 2 ≤ k) (rest : List Char) :
    collapseGo k ('\n' :: rest) = collapseGo (k + 1) rest := by
  rw [collapseGo_cons, if_pos rfl, if_pos hk]

theorem collapseGo_ne {k : Nat} {c : Char} (hc : c ≠ '\n') (rest : List Char) :
    collapseGo k (c :: rest) = c :: collapseGo 0 rest := by
  rw [collapseGo_cons, if_neg hc]

theorem getLast?_cons_tail {α : Type} (y : α) {l : List α} (h : l ≠ []) :
    (y :: l).getLast? = l.getLast? := by
  cases l with
  | nil => exact absurd rfl h
  | cons z l2 => rw [List.getLast?_cons_cons]

/-- Collapsing commutes with appending a final blank separator, provided
the text does not already end in a newline. -/
theorem collapse_append_nn :
    ∀ (T : List Char) (k : Nat), (T = [] → k = 0) →
      T.getLast? ≠ some '\n' →
      collapseGo k (T ++ ['\n', '\n']) = collapseGo k T ++ ['\n', '\n'] := by
  intro T
  induction T with
  | nil =>
    intro k hk _
    rw [hk rfl, List.nil_append, collapseGo_nl_lo (by omega),
      collapseGo_nl_lo (by omega)]
    rfl
  | cons c T2 ih =>
    intro k hk hlast
    by_cases hc : c = '\n'
    · subst hc
      cases T2 with
      | nil => exact absurd rfl hlast
      | cons x T3 =>
        have hlast2 : (x :: T3).getLast? ≠ some '\n' := by
          rw [List.getLast?_cons_cons] at hlast
          exact hlast
        by_cases hk2 : 2 ≤ k
        · rw [List.cons_append, collapseGo_nl_hi hk2, collapseGo_nl_hi hk2]
          exact ih (k + 1) (fun h => absurd h (by simp)) hlast2
        · rw [List.cons_append, collapseGo_nl_lo (by omega),
            collapseGo_nl_lo (by omega),
            ih (k + 1) (fun h => absurd h (by simp)) hlast2]
          rfl
    · cases T2 with
      | nil =>
        rw [List.cons_append, List.nil_append, collapseGo_ne hc,
          collapseGo_ne hc, collapseGo_nl_lo (by omega),
          collapseGo_nl_lo (by omega)]
        rfl
      | cons x T3 =>
        have hlast2 : (x :: T3).getLast? ≠ some '\n' := by
          rw [List.getLast?_cons_cons] at hlast
          exact hlast
        rw [List.cons_append, collapseGo_ne hc, collapseGo_ne hc,
          ih 0 (fun h => absurd h (by simp)) hlast2]
        rfl

/-- Collapsing preserves the final character when it is not a newline. -/
theorem collapse_last :
    ∀ (T : List Char) (ch : Char), ch ≠ '\n' → T.getLast? = some ch →
      ∀ k, (collapseGo k T).getLast? = some ch := by
  intro T
  induction T with
  | nil => intro ch _ h; cases h
  | cons c T2 ih =>
    intro ch hch hl k
    cases T2 with
    | nil =>
      have hc : c = ch := by simpa using hl
      subst hc
      rw [collapseGo_ne hch]
      rfl
    | cons x T3 =>
      have hl2 : (x :: T3).getLast? = some ch := by
        rw [List.getLast?_cons_cons] at hl
        exact hl
      by_cases hc : c = '\n'
      · subst hc
        by_cases hk : 2 ≤ k
        · rw [collapseGo_nl_hi hk]
          exact ih ch hch hl2 (k + 1)
        · rw [collapseGo_nl_lo (by omega)]
          have htail := ih ch hch hl2 (k + 1)
          have hcne : collapseGo (k + 1) (x :: T3) ≠ [] := by
            intro h0
            rw [h0] at htail
            cases htail
          rw [getLast?_cons_tail _ hcne]
          exact htail
      · rw [collapseGo_ne hc]
        have htail := ih ch hch hl2 0
        have hcne : collapseGo 0 (x :: T3) ≠ [] := by
          intro h0
          rw [h0] at htail
          cases htail
        rw [getLast?_cons_tail _ hcne]
        exact htail

theorem dropWhile_head_false {α : Type} (p : α → Bool) :
    ∀ (l : List α) (x : α) (xs : List α),
      l.dropWhile p = x :: xs → p x = false := by
  intro l
  induction l with
  | nil => intro x xs h; cases h
  | cons a l2 ih =>
    intro x xs h
    rw [List.dropWhile_cons] at h
    split at h
    · exact ih x xs h
    · rename_i hpa
      simp only [Bool.not_eq_true] at hpa
      obtain ⟨h1, _⟩ := (List.cons.injEq _ _ _ _).mp h
      rw [← h1]
      exact hpa

theorem trimEnd_pref (c : List Char) : trimEnd c <+: c := by
  refine ⟨(c.reverse.takeWhile Char.isWhitespace).reverse, ?_⟩
  show (c.reverse.dropWhile Char.isWhitespace).reverse ++
    (c.reverse.takeWhile Char.isWhitespace).reverse = c
  rw [← List.reverse_append, List.takeWhile_append_dropWhile,
    List.reverse_reverse]

theorem trimEnd_last (c : List Char) :
    trimEnd c = [] ∨
      ∃ ch, (trimEnd c).getLast? = some ch ∧ ch.isWhitespace = false := by
  rcases h : c.reverse.dropWhile Char.isWhitespace with _ | ⟨x, xs⟩
  · left
    show (c.reverse.dropWhile Char.isWhitespace).reverse = []
    rw [h]
    rfl
  · right
    refine ⟨x, ?_, dropWhile_head_false _ _ _ _ h⟩
    show ((c.reverse.dropWhile Char.isWhitespace).reverse).getLast? = some x
    rw [h, List.reverse_cons, List.getLast?_concat]

/-- trimEnd removes a final blank separator exactly when the text before
it is already trimmed. -/
theorem trim_append_nn (X : List Char)
    (h : X = [] ∨ ∃ ch, X.getLast? = some ch ∧ ch.isWhitespace = false) :
    trimEnd (X ++ ['\n', '\n']) = X := by
  rcases h with rfl | ⟨ch, hl, hws⟩
  · decide
  · have hrev : X.reverse.head? = some ch := by
      rw [List.head?_reverse]
      exact hl
    rcases hx : X.reverse with _ | ⟨y, t⟩
    · rw [hx] at hrev
      cases hrev
    · rw [hx] at hrev
      have hy : y = ch := by simpa using hrev
      subst hy
      show ((X ++ ['\n', '\n']).reverse.dropWhile Char.isWhitespace).reverse
        = X
      rw [List.reverse_append, hx,
        show ((['\n', '\n'] : List Char).reverse) = ['\n', '\n'] from rfl]
      simp only [List.cons_append, List.nil_append]
      rw [List.dropWhile_cons, if_pos (by decide), List.dropWhile_cons,
        if_pos (by decide), List.dropWhile_cons, if_neg (by rw [hws]; simp)]
      rw [← hx, List.reverse_reverse]

/-- The cleanup pass of removeEnvBlock cancels the blank separator that
writeEnvBlock introduced. -/
theorem cleanup_nn (c : List Char) :
    trimEnd (collapseRuns (trimEnd c ++ ['\n', '\n'])) =
      collapseRuns (trimEnd c) := by
  rcases trimEnd_last c with hT | ⟨ch, hl, hws⟩
  · rw [hT]
    decide
  · have hch : ch ≠ '\n' := by
      intro he
      rw [he] at hws
      cases hws
    rw [show collapseRuns (trimEnd c ++ ['\n', '\n']) =
        collapseGo 0 (trimEnd c ++ ['\n', '\n']) from rfl]
    rw [collapse_append_nn (trimEnd c) 0 (fun _ => rfl)
      (by rw [hl]; intro h2; exact hch (Option.some.inj h2))]
    exact trim_append_nn _
      (Or.inr ⟨ch, collapse_last (trimEnd c) ch hch hl 0, hws⟩)

/-! The markers: non-empty, newline-free (for single-line rig names),
and starting with '#'. -/

theorem beginTag_cons (rig : List Char) :
    beginTagL rig = '#' :: (" --- agent-rig: ".data ++ rig ++ " ---".data)
      := rfl

theorem endTag_cons (rig : List Char) :
    endTagL rig = '#' :: (" --- end agent-rig: ".data ++ rig ++ " ---".data)
      := rfl

theorem beginTag_ne_nil (rig : List Char) : beginTagL rig ≠ [] := by
  rw [beginTag_cons]
  exact List.cons_ne_nil _ _

theorem endTag_ne_nil (rig : List Char) : endTagL rig ≠ [] := by
  rw [endTag_cons]
  exact List.cons_ne_nil _ _

theorem nl_not_mem_beginTag {rig : List Char} (h : '\n' ∉ rig) :
    '\n' ∉ beginTagL rig := by
  intro hm
  simp only [beginTagL, List.mem_append] at hm
  rcases hm with (h1 | h2) | h3
  · exact absurd h1 (by decide)
  · exact h h2
  · exact absurd h3 (by decide)

theorem nl_not_mem_endTag {rig : List Char} (h : '\n' ∉ rig) :
    '\n' ∉ endTagL rig := by
  intro hm
  simp only [endTagL, List.mem_append] at hm
  rcases hm with (h1 | h2) | h3
  · exact absurd h1 (by decide)
  · exact h h2
  · exact absurd h3 (by decide)

/-- The block is the begin marker, a newline, then the joined body lines
and end marker. -/
theorem formatEnvBlock_eq (rig : List Char)
    (env : List (List Char × List Char)) (fish : Bool) :
    formatEnvBlock rig env fish =
      beginTagL rig ++ '\n' ::
        joinNl (env.map (exportLine fish) ++ [endTagL rig]) := by
  show joinNl ([beginTagL rig] ++ env.map (exportLine fish) ++ [endTagL rig])
    = _
  cases h : env.map (exportLine fish) with
  | nil => rfl
  | cons a as => rfl

/-- The first occurrence of the begin marker in freshly appended content
is the appended block's own marker. -/
theorem splitFirst_begin_W {rig c : List Char} (hrig : '\n' ∉ rig)
    (hnob : ¬ beginTagL rig <:+: c) (tail0 : List Char) :
    splitFirst (beginTagL rig)
      ((trimEnd c ++ ['\n', '\n']) ++ (beginTagL rig ++ tail0)) =
      some (trimEnd c ++ ['\n', '\n'], tail0) := by
  have hne := beginTag_ne_nil rig
  have hx := nl_not_mem_beginTag hrig
  have hcond : ∀ t, t <:+ (trimEnd c ++ ['\n', '\n']) → t ≠ [] →
      ¬ beginTagL rig <+: (t ++ (beginTagL rig ++ tail0)) := by
    intro t ht htne hp
    rcases suf_split ht with h1 | ⟨u, hu, hune, rfl⟩
    · rcases List.suffix_cons_iff.mp h1 with he | h2
      · subst he
        exact pref_nl_head hx hne _ hp
      · rcases List.suffix_cons_iff.mp h2 with he2 | h3
        · subst he2
          exact pref_nl_head hx hne _ hp
        · exact htne (List.suffix_nil.mp h3)
    · have hp2 : beginTagL rig <+:
          u ++ '\n' :: ('\n' :: (beginTagL rig ++ tail0)) := by
        simpa using hp
      have hpu := (pref_boundary hx).mp hp2
      exact hnob (inf_of_pref (inf_of_suf (inf_of_pref_self hpu) hu)
        (trimEnd_pref c))
  rw [splitFirst_append _ _ hcond, splitFirst_head _ hne]
  simp

/-- Inside the block's tail, the first occurrence of the end marker is the
block's own end marker, and the text after it is the final newline. -/
theorem splitFirst_end_block {pat : List Char} (hn : '\n' ∉ pat)
    (hne : pat ≠ []) (lines : List (List Char))
    (hno : ∀ l ∈ lines, ¬ pat <:+: l) :
    ∃ m, splitFirst pat ('\n' :: joinNl (lines ++ [pat]) ++ ['\n']) =
      some (m, ['\n']) := by
  cases lines with
  | nil =>
    refine ⟨['\n'], ?_⟩
    rw [show ('\n' :: joinNl ([] ++ [pat]) ++ ['\n']) =
        ['\n'] ++ (pat ++ ['\n']) from by simp [joinNl]]
    have hcond : ∀ t, t <:+ (['\n'] : List Char) → t ≠ [] →
        ¬ pat <+: (t ++ (pat ++ ['\n'])) := by
      intro t ht htne hp
      rcases List.suffix_cons_iff.mp ht with he | h2
      · subst he
        exact pref_nl_head hn hne _ hp
      · exact htne (List.suffix_nil.mp h2)
    rw [splitFirst_append _ _ hcond, splitFirst_head _ hne]
    simp
  | cons l0 ls =>
    rw [joinNl_snoc (l0 :: ls) (by simp) pat]
    refine ⟨'\n' :: joinNl (l0 :: ls) ++ ['\n'], ?_⟩
    rw [show ('\n' :: (joinNl (l0 :: ls) ++ '\n' :: pat) ++ ['\n']) =
        ('\n' :: joinNl (l0 :: ls) ++ ['\n']) ++ (pat ++ ['\n'])
      from by simp]
    have hcond : ∀ t, t <:+ ('\n' :: joinNl (l0 :: ls) ++ ['\n']) →
        t ≠ [] → ¬ pat <+: (t ++ (pat ++ ['\n'])) := by
      intro t ht htne hp
      have ht' : t <:+ ('\n' :: joinNl (l0 :: ls)) ++ ['\n'] := by
        simpa using ht
      rcases suf_split ht' with h1 | ⟨u, hu, hune, rfl⟩
      · rcases List.suffix_cons_iff.mp h1 with he | h2
        · subst he
          exact pref_nl_head hn hne _ hp
        · exact htne (List.suffix_nil.mp h2)
      · have hp2 : pat <+: u ++ '\n' :: (pat ++ ['\n']) := by
          simpa using hp
        have hpu := (pref_boundary hn).mp hp2
        have hinf : pat <:+: '\n' :: joinNl (l0 :: ls) :=
          inf_of_suf (inf_of_pref_self hpu) hu
        rcases inf_cons.mp hinf with h3 | h3
        · exact pref_nl_head hn hne _ h3
        · obtain ⟨line, hm, hocc⟩ := joinNl_occ hn hne _ h3
          exact hno line hm hocc
    rw [splitFirst_append _ _ hcond, splitFirst_head _ hne]
    simp

/-- Append branch: no begin marker in the existing content. -/
theorem writeEnvBlock_append {rig c : List Char}
    (env : List (List Char × List Char)) (fish : Bool)
    (hnob : ¬ beginTagL rig <:+: c) :
    writeEnvBlock rig env fish (some c) =
      trimEnd c ++ ('\n' :: '\n' :: formatEnvBlock rig env fish) ++ ['\n']
      := by
  simp only [writeEnvBlock]
  rw [if_neg hnob]

/-- Removal, given where the two markers first occur, when the matched
span is preceded and followed by a newline. -/
theorem removeEnvBlock_some {rig w b0 afterBegin m a0 : List Char}
    (h1 : splitFirst (beginTagL rig) w = some (b0 ++ ['\n'], afterBegin))
    (h2 : splitFirst (endTagL rig) afterBegin = some (m, '\n' :: a0)) :
    removeEnvBlock rig (some w) =
      some (trimEnd (collapseRuns (b0 ++ '\n' :: a0)) ++ ['\n']) := by
  have hb : beginTagL rig <:+: w := by
    by_contra hcon
    rw [(splitFirst_none (beginTag_ne_nil rig)).mpr hcon] at h1
    cases h1
  simp only [removeEnvBlock]
  rw [if_pos hb, h1]
  simp only [h2]
  rw [if_pos (List.getLast?_concat b0), List.dropLast_concat]

/-- Removing the block from freshly appended content leaves the trimmed,
collapsed original plus the final newline. -/
theorem removeEnvBlock_of_append_shape (rig c : List Char)
    (env : List (List Char × List Char)) (fish : Bool)
    (hrig : '\n' ∉ rig) (hnob : ¬ beginTagL rig <:+: c)
    (hlines : ∀ kv ∈ env, ¬ endTagL rig <:+: exportLine fish kv) :
    removeEnvBlock rig
      (some (trimEnd c ++ ('\n' :: '\n' :: formatEnvBlock rig env fish)
        ++ ['\n'])) = some (collapseRuns (trimEnd c) ++ ['\n']) := by
  obtain ⟨m, h2⟩ := splitFirst_end_block (nl_not_mem_endTag hrig)
    (endTag_ne_nil rig) (env.map (exportLine fish))
    (fun l hl => by
      obtain ⟨kv, hkv, rfl⟩ := List.mem_map.mp hl
      exact hlines kv hkv)
  have h1 := splitFirst_begin_W hrig hnob
    ('\n' :: joinNl (env.map (exportLine fish) ++ [endTagL rig]) ++ ['\n'])
  have hW : trimEnd c ++ ('\n' :: '\n' :: formatEnvBlock rig env fish)
      ++ ['\n'] =
      (trimEnd c ++ ['\n', '\n']) ++ (beginTagL rig ++
        ('\n' :: joinNl (env.map (exportLine fish) ++ [endTagL rig])
          ++ ['\n'])) := by
    rw [formatEnvBlock_eq]
    simp
  have hsplit : (trimEnd c ++ ['\n', '\n'] : List Char) =
      (trimEnd c ++ ['\n']) ++ ['\n'] := by simp
  rw [hW, hsplit]
  rw [hsplit] at h1
  rw [removeEnvBlock_some h1 h2]
  rw [show ((trimEnd c ++ ['\n']) ++ '\n' :: ([] : List Char)) =
      trimEnd c ++ ['\n', '\n'] from by simp]
  rw [cleanup_nn]

/-- C6: for content with no tagged block for the rig, writing the rig's
block and immediately removing it returns the original content with
trailing whitespace trimmed, newline runs of three or more collapsed to
two, and a single final newline appended. -/
theorem env_block_roundtrip (rig c : List Char)
    (env : List (List Char × List Char)) (fish : Bool)
    (hrig : '\n' ∉ rig) (hnob : ¬ beginTagL rig <:+: c)
    (hlines : ∀ kv ∈ env, ¬ endTagL rig <:+: exportLine fish kv) :
    removeEnvBlock rig (some (writeEnvBlock rig env fish (some c))) =
      some (collapseRuns (trimEnd c) ++ ['\n']) := by
  rw [writeEnvBlock_append env fish hnob]
  exact removeEnvBlock_of_append_shape rig c env fish hrig hnob hlines

def rtRig : List Char := "demo".data

def rtEnv : List (List Char × List Char) := [("FOO".data, "bar".data)]

def rtC : List Char := "# my profile\nalias ll\n\n".data

theorem env_block_roundtrip_witness :
    removeEnvBlock rtRig (some (writeEnvBlock rtRig rtEnv false (some rtC)))
      = some (collapseRuns (trimEnd rtC) ++ ['\n']) :=
  env_block_roundtrip rtRig rtC rtEnv false (by decide) (by decide)
    (by decide)

/-! Counting begin markers: the one-block invariant. -/

end AgentRig
